import Mathlib

/-!
wb_l2, l2.12: a minimal grep with context windows.

A shallow embedding of `src/l2.12/main.go` (`parseFlags`, `processFile`,
`findMatches`, `printResults`, `main`) and theorems about the match
selection, the context renderer and the run over the files.  The string
unpacker of `src/l2.9` and the anagram grouper of `src/l2.11` follow, each
in a namespace of its own.

Modelling conventions.

* Go `int` is the 64-bit two's-complement integer of the usual targets.  A
  value is an `Int`, and every arithmetic result that can leave the range
  `[-2^63, 2^63)` is passed through `wrapInt`.
* Standard output is a list of records (`Out`), one per printed line, in
  emission order; `Out.render` gives the text of the printed line.
* A slice access out of range panics in Go; the model returns `none`.
* The regular-expression library is not part of the repository.  Its
  `Compile`/`MatchString` pair is a parameter of `findMatches`, and the one
  property of it that is used is stated as `LiteralLaw`.
-/

namespace Grep

/-! ## Machine integers -/

/-- Two's-complement wrap-around of a 64-bit Go `int`. -/
def wrapInt (x : Int) : Int :=
  (x + 9223372036854775808) % 18446744073709551616 - 9223372036854775808

/-- Largest value of a 64-bit Go `int`. -/
def maxInt : Int := 9223372036854775807

/-! ## Data model -/

/-- The `Config` struct of `main.go`. -/
structure Config where
  before : Int
  after : Int
  context : Int
  count : Bool
  ignore : Bool
  invert : Bool
  fixed : Bool
  lineNum : Bool
  pattern : String
  files : List String

/-- One line written to standard output by `printResults`. -/
inductive Out where
  /-- The count-only summary, `fmt.Printf("%s:%d\n", filename, len(matches))`. -/
  | count (file : String) (n : Nat)
  /-- The file header, `fmt.Printf("%s:\n", filename)`. -/
  | header (file : String)
  /-- The group separator, `fmt.Println("--")`. -/
  | sep
  /-- The line `lines[idx]`, printed as `text` (prefix included). -/
  | line (idx : Int) (text : String)
  /-- The deferred `fmt.Println("")`. -/
  | blank
  deriving DecidableEq, Repr

/-- Text of the printed line, without its newline. -/
def Out.render : Out → String
  | Out.count file n => file ++ ":" ++ toString n
  | Out.header file => file ++ ":"
  | Out.sep => "--"
  | Out.line _ text => text
  | Out.blank => ""

/-- Loop state of `printResults`: what was printed so far, and `lastPrintedIdx`. -/
structure PState where
  out : List Out
  last : Int
  deriving DecidableEq, Repr

/-! ## printResults -/

/-- The slice access `lines[idx]`; `none` is the run-time panic. -/
def lineAt (lines : List String) (idx : Int) : Option String :=
  if 0 ≤ idx then lines.get? idx.toNat else none

/-- The text printed for `lines[idx]`, lines 148-157: the prefix is
`fmt.Sprintf("%d:", idx+1)` when `lineNum` is set and empty otherwise. -/
def lineText (config : Config) (idx : Int) (l : String) : String :=
  let pre := if config.lineNum then toString (idx + 1) ++ ":" else ""
  if pre ≠ "" then pre ++ l else l

/-- The inner loop `for idx := printStart; idx <= end; idx++`, run for its
trip count `k`.  (`idx < len(lines)` at each access, so `idx++` cannot
overflow.) -/
def printLines (config : Config) (lines : List String) :
    Nat → Int → PState → Option PState
  | 0, _, st => some st
  | k + 1, idx, st =>
    match lineAt lines idx with
    | none => none
    | some l =>
      printLines config lines k (idx + 1)
        { out := st.out ++ [Out.line idx (lineText config idx l)], last := idx }

/-- The window start of lines 129-132: `start := matchIdx - config.before`,
reset to `0` when negative. -/
def winStart (config : Config) (matchIdx : Int) : Int :=
  let start := wrapInt (matchIdx - config.before)
  if start < 0 then 0 else start

/-- The window end of lines 134-137: `end := matchIdx + config.after`, reset
to `len(lines) - 1` when `end >= len(lines)`. -/
def winStop (config : Config) (lines : List String) (matchIdx : Int) : Int :=
  let stop := wrapInt (matchIdx + config.after)
  if stop ≥ (lines.length : Int) then (lines.length : Int) - 1 else stop

/-- One iteration of the loop over `matches`, lines 129-160. -/
def printMatch (config : Config) (lines : List String) (st : PState) (matchIdx : Int) :
    Option PState :=
  let start := winStart config matchIdx
  let stop := winStop config lines matchIdx
  let out := if st.last ≠ -1 ∧ start > st.last + 1 then st.out ++ [Out.sep] else st.out
  let printStart := if st.last ≠ -1 ∧ start ≤ st.last then st.last + 1 else start
  printLines config lines (stop + 1 - printStart).toNat printStart { out := out, last := st.last }

/-- The loop `for _, matchIdx := range matches`. -/
def printLoop (config : Config) (lines : List String) : List Int → PState → Option PState
  | [], st => some st
  | m :: ms, st =>
    match printMatch config lines st m with
    | none => none
    | some st' => printLoop config lines ms st'

/-- The function `printResults` (`matchList` is its parameter `matches`): the
records written to standard output, or `none` when a slice access panics. -/
def printResults (config : Config) (filename : String) (lines : List String)
    (matchList : List Int) : Option (List Out) :=
  if config.count then
    some [Out.count filename matchList.length]
  else if matchList.length = 0 then
    some ([Out.header filename] ++ [Out.blank])
  else
    match printLoop config lines matchList { out := [], last := -1 } with
    | none => none
    | some st => some ([Out.header filename] ++ st.out ++ [Out.blank])

/-- Indices of the line records of an output, in emission order. -/
def lineIdxs : List Out → List Int
  | [] => []
  | Out.line idx _ :: rest => idx :: lineIdxs rest
  | _ :: rest => lineIdxs rest

/-- A plain configuration: all flags off, no context. -/
def baseConfig : Config :=
  { before := 0, after := 0, context := 0, count := false, ignore := false,
    invert := false, fixed := false, lineNum := false, pattern := "", files := [] }

/-! ## findMatches -/

/-- The regular-expression library used by `findMatches` (Go's `regexp`,
which is not part of the repository).  `compile pat` is `regexp.Compile(pat)`
followed by `MatchString`: `none` when the pattern is rejected, otherwise the
predicate "the compiled pattern finds an occurrence in the line".
`quoteMeta` is `regexp.QuoteMeta`. -/
structure RegexpLib where
  compile : String → Option (String → Bool)
  quoteMeta : String → String

/-- The documented contract of `regexp.QuoteMeta` on valid UTF-8 text: the
quoted text is a regular expression that compiles and matches exactly the
literal text, so a line matches it when the text occurs in the line as a
substring.  It speaks of `String`s only, that is of valid UTF-8; a pattern
that is not valid UTF-8 is rejected by `regexp.Compile`, quoted or not (see
`findMatchesBytes`). -/
def LiteralLaw (lib : RegexpLib) : Prop :=
  ∀ s : String, ∃ re, lib.compile (lib.quoteMeta s) = some re ∧
    ∀ l : String, re l = true ↔ s.data <:+: l.data

/-- The errors of the program that the model distinguishes. -/
inductive GrepError where
  /-- The error of line 98, `invalid pattern: ...`. -/
  | invalidPattern
  deriving DecidableEq, Repr

/-- The loop of lines 101-110 from line index `i` on, `acc` being `matches`. -/
def matchLoop (re : String → Bool) (invert : Bool) : List String → Int → List Int → List Int
  | [], _, acc => acc
  | line :: rest, i, acc =>
    let m := re line
    let m := if invert then !m else m
    matchLoop re invert rest (i + 1) (if m then acc ++ [i] else acc)

/-- The compilation of lines 85-96: the pattern gets the prefix `(?i)` when
`ignore` is set, and what is compiled is its `QuoteMeta` when `fixed` is set. -/
def compilePattern (lib : RegexpLib) (config : Config) : Option (String → Bool) :=
  let pattern := config.pattern
  let pattern := if config.ignore then "(?i)" ++ pattern else pattern
  if config.fixed then lib.compile (lib.quoteMeta pattern) else lib.compile pattern

/-- The function `findMatches`. -/
def findMatches (lib : RegexpLib) (config : Config) (lines : List String) :
    Except GrepError (List Int) :=
  match compilePattern lib config with
  | none => Except.error GrepError.invalidPattern
  | some re => Except.ok (matchLoop re config.invert lines 0 [])

/-! ### A small library instance

An engine that knows literal characters and escaped metacharacters only; it
serves to instantiate the library parameter on concrete inputs. -/

/-- The characters that `regexp.QuoteMeta` escapes. -/
def special (c : Char) : Bool := "\\.+*?()|[]\x7b\x7d^$".data.contains c

/-- Go's `regexp.QuoteMeta` on a character list: a backslash before every
metacharacter. -/
def quoteChars : List Char → List Char
  | [] => []
  | c :: rest => if special c then '\\' :: c :: quoteChars rest else c :: quoteChars rest

/-- Reading a pattern made of literal characters and escaped metacharacters;
`none` for any other pattern. -/
def unquoteChars : List Char → Option (List Char)
  | [] => some []
  | c :: rest =>
    if c = '\\' then
      match rest with
      | [] => none
      | d :: rest' => if special d then (unquoteChars rest').map (d :: ·) else none
    else if special c then none
    else (unquoteChars rest).map (c :: ·)

/-- The literal-only engine. -/
def litLib : RegexpLib where
  compile pat := (unquoteChars pat.data).map fun lit l => decide (lit <:+: l.data)
  quoteMeta s := String.mk (quoteChars s.data)

/-! ## Auxiliary definitions used in the statements -/

/-- The record printed for line `idx`. -/
def lineRec (config : Config) (lines : List String) (idx : Int) : Out :=
  Out.line idx (lineText config idx (lines.getD idx.toNat ""))

/-- The `k` consecutive integers from `i` on. -/
def intRun : Int → Nat → List Int
  | _, 0 => []
  | i, k + 1 => i :: intRun (i + 1) k

/-- The canonical rendering of an ascending index list: every index as its
line record, with one separator wherever two successive indices are not
consecutive. -/
def gapRender (f : Int → Out) : List Int → List Out
  | [] => []
  | [i] => [f i]
  | i :: j :: rest =>
    f i :: (if i + 1 < j then Out.sep :: gapRender f (j :: rest) else gapRender f (j :: rest))

/-- A record of the body of a block: a line or a separator. -/
def Out.isBody : Out → Bool
  | Out.sep => true
  | Out.line _ _ => true
  | _ => false

/-- The line at which iteration `matchIdx` starts printing. -/
def printStart (config : Config) (st : PState) (matchIdx : Int) : Int :=
  if st.last ≠ -1 ∧ winStart config matchIdx ≤ st.last then st.last + 1
  else winStart config matchIdx

/-- The number of lines iteration `matchIdx` prints. -/
def printCount (config : Config) (lines : List String) (st : PState) (matchIdx : Int) : Nat :=
  (winStop config lines matchIdx + 1 - printStart config st matchIdx).toNat

/-- The separator iteration `matchIdx` prints, if any. -/
def sepOf (config : Config) (st : PState) (matchIdx : Int) : List Out :=
  if st.last ≠ -1 ∧ winStart config matchIdx > st.last + 1 then [Out.sep] else []

/-- The safety invariant: the watermark is `-1` or a valid index, and every
record is a separator or a line of valid index. -/
def Safe (lines : List String) (st : PState) : Prop :=
  -1 ≤ st.last ∧ st.last < (lines.length : Int) ∧
  (∀ r ∈ st.out, r.isBody = true) ∧
  ∀ i ∈ lineIdxs st.out, 0 ≤ i ∧ i < (lines.length : Int)

/-- The selection test of lines 103-107 for one line. -/
def selects (re : String → Bool) (invert : Bool) (line : String) : Bool :=
  if invert then !(re line) else re line

/-- The standing assumptions on a run of the renderer: `before` and `after`
are non-negative values of a Go `int`, the line list is a Go slice that fits
in memory (at most `2^62` elements), and the match list is strictly
increasing with every index in `[0, len(lines))`. -/
structure RunOk (config : Config) (lines : List String) (ms : List Int) : Prop where
  before_nonneg : 0 ≤ config.before
  before_le : config.before ≤ maxInt
  after_nonneg : 0 ≤ config.after
  after_le : config.after ≤ maxInt
  length_le : (lines.length : Int) ≤ 4611686018427387904
  increasing : ms.Pairwise (· < ·)
  inRange : ∀ m ∈ ms, 0 ≤ m ∧ m < (lines.length : Int)

/-- The loop invariant of `printResults` after the matches `prev`: the output
is the canonical rendering of an ascending index list, which holds exactly
the lines of the windows computed so far, and the watermark is `-1` with
nothing printed or the end of a window and the last index printed. -/
def LoopInv (config : Config) (lines : List String) (prev : List Int) (st : PState) : Prop :=
  ∃ idxs : List Int,
    st.out = gapRender (lineRec config lines) idxs ∧
    idxs.Pairwise (· < ·) ∧
    (∀ i, i ∈ idxs ↔ ∃ m ∈ prev, winStart config m ≤ i ∧ i ≤ winStop config lines m) ∧
    ((st.last = -1 ∧ idxs = []) ∨
     (∃ m0 ∈ prev, m0 + config.after ≤ maxInt ∧ 0 ≤ m0 ∧ m0 < (lines.length : Int) ∧
        st.last = winStop config lines m0 ∧ idxs.getLast? = some st.last))

/-! ### Patterns and lines as byte strings

A Go string is a sequence of bytes and need not be valid UTF-8; a `String`
holds valid UTF-8 only.  What follows is `findMatches` once more, on byte
strings, for the inputs that `findMatches` above cannot be given. -/

/-- The values that `flag.Parse` stores for the options `-A -B -C -c -i -v -F
-n` (fields of the same names, the boolean `-c` being `cnt`). -/
structure Flags where
  A : Int
  B : Int
  C : Int
  cnt : Bool
  i : Bool
  v : Bool
  F : Bool
  n : Bool

/-- The function `parseFlags`, from the values stored by `flag.Parse` and
the positional arguments `flag.Args()`. -/
def parseFlags (fl : Flags) (args : List String) : Config :=
  let config : Config :=
    { before := fl.B, after := fl.A, context := fl.C, count := fl.cnt, ignore := fl.i,
      invert := fl.v, fixed := fl.F, lineNum := fl.n, pattern := "", files := [] }
  let config :=
    if config.context > 0 then
      { config with after := config.context, before := config.context }
    else config
  if args.length = 0 then { config with pattern := "" }
  else { config with pattern := args.headD "", files := args.tail }

/-- No option given: every flag at its default. -/
def plainFlags : Flags :=
  { A := 0, B := 0, C := 0, cnt := false, i := false, v := false, F := false, n := false }

/-- What opening and scanning a file gives `processFile`: `os.Open` fails,
or the scanner reports an error, or the lines of the file. -/
inductive FileRead where
  | openFails
  | scanFails
  | lines (ls : List String)
  deriving DecidableEq, Repr

/-- The errors that `processFile` returns, lines 59, 71 and 77. -/
inductive ProcError where
  /-- The error `cannot open file: ...`. -/
  | cannotOpen
  /-- The error `error reading file: ...`. -/
  | readError
  /-- The error `error in: ...` wrapping the error of `findMatches`. -/
  | inFindMatches (e : GrepError)
  deriving DecidableEq, Repr

/-- How a call of `processFile` ends: `nil`, an error, or a run-time panic. -/
inductive ProcStatus where
  | ok
  | error (e : ProcError)
  | panic
  deriving DecidableEq, Repr

/-- The effect of `processFile`: what it printed and how it ended. -/
structure ProcResult where
  out : List Out
  status : ProcStatus
  deriving DecidableEq, Repr

/-- The function `processFile`; `fs` says what reading each file gives. -/
def processFile (lib : RegexpLib) (fs : String → FileRead) (config : Config)
    (filename : String) : ProcResult :=
  match fs filename with
  | FileRead.openFails => { out := [], status := ProcStatus.error ProcError.cannotOpen }
  | FileRead.scanFails => { out := [], status := ProcStatus.error ProcError.readError }
  | FileRead.lines ls =>
    if ls.length ≠ 0 then
      match findMatches lib config ls with
      | Except.error e =>
        { out := [], status := ProcStatus.error (ProcError.inFindMatches e) }
      | Except.ok ms =>
        match printResults config filename ls ms with
        | none => { out := [], status := ProcStatus.panic }
        | some out => { out := out, status := ProcStatus.ok }
    else { out := [], status := ProcStatus.ok }

/-- One line written to standard output by the program. -/
inductive MainOut where
  /-- A record printed by `printResults`. -/
  | record (o : Out)
  /-- The message `ERROR: pattern is required!`. -/
  | patternRequired
  /-- The message `ERROR: no files specified!`. -/
  | noFiles
  /-- The message `ERROR: error in processing file <filename>: <error>`. -/
  | processing (filename : String) (e : ProcError)
  deriving DecidableEq, Repr

/-- The effect of a run: what was printed, and the exit status: `0` when
`main` returns, `1` for `os.Exit(1)`, `2` for a panic. -/
structure MainResult where
  out : List MainOut
  exit : Int
  deriving DecidableEq, Repr

/-- The loop of `main` over the files, lines 179-186; `acc` is what was
printed before. -/
def runFiles (lib : RegexpLib) (fs : String → FileRead) (config : Config) :
    List String → List MainOut → MainResult
  | [], acc => { out := acc, exit := 0 }
  | filename :: rest, acc =>
    let r := processFile lib fs config filename
    match r.status with
    | ProcStatus.ok => runFiles lib fs config rest (acc ++ r.out.map MainOut.record)
    | ProcStatus.error e =>
      { out := acc ++ r.out.map MainOut.record ++ [MainOut.processing filename e], exit := 1 }
    | ProcStatus.panic => { out := acc ++ r.out.map MainOut.record, exit := 2 }

/-- The function `main` after `parseFlags`. -/
def runMain (lib : RegexpLib) (fs : String → FileRead) (config : Config) : MainResult :=
  if config.pattern = "" then { out := [MainOut.patternRequired], exit := 1 }
  else if config.files.length = 0 then { out := [MainOut.noFiles], exit := 1 }
  else runFiles lib fs config config.files []

/-- The function `main`. -/
def main (lib : RegexpLib) (fs : String → FileRead) (fl : Flags) (args : List String) :
    MainResult :=
  runMain lib fs (parseFlags fl args)

/-- A record with the text of a line record erased: what is left is the
kind of the record and the line index. -/
def Out.shape : Out → Out
  | Out.line idx _ => Out.line idx ""
  | o => o

/-- The loop state with the texts erased. -/
def PState.shape (st : PState) : PState :=
  { out := st.out.map Out.shape, last := st.last }

/-- Every record printed so far is a separator or the record of a line of
valid index, with the text that `lineText` gives for that line. -/
def TextOk (config : Config) (lines : List String) (st : PState) : Prop :=
  -1 ≤ st.last ∧
  ∀ r ∈ st.out, r = Out.sep ∨
    ∃ i : Int, 0 ≤ i ∧ i < (lines.length : Int) ∧ r = lineRec config lines i

end Grep

/-! # l2.9: the run-length string unpacker

A shallow embedding of `src/l2.9/main.go`.  A rune is an `Int` (the code
uses `-1` as a sentinel), a character of the input is a `Char`, and
`unicode.IsDigit`, which is not part of the repository, is the parameter
`isDigit`. -/

namespace Unpack

/-- The error `errors.New("Incorrect input")`. -/
inductive UnpackError where
  | incorrectInput
  deriving DecidableEq, Repr

/-- The conversion `string(r)` of a rune: its character, or U+FFFD when `r`
is not a valid code point. -/
def runeString (r : Int) : List Char :=
  if 0 ≤ r ∧ r.toNat.isValidChar then [Char.ofNat r.toNat] else [Char.ofNat 65533]

/-- The variables of `unpack`: `res` (as its characters), `prev`, `hasLetter`. -/
structure UState where
  res : List Char
  prev : Int
  hasLetter : Bool
  deriving DecidableEq, Repr

/-- The inner loop `for i := 1; i < count; i++ { res += string(prev) }`, run
for its trip count. -/
def repeatRune : Nat → Int → List Char → List Char
  | 0, _, res => res
  | k + 1, prev, res => repeatRune k prev (res ++ runeString prev)

/-- The loop `for _, r := range s`; `none` is the error return of line 21. -/
def unpackLoop (isDigit : Char → Bool) : List Char → UState → Option UState
  | [], st => some st
  | r :: rest, st =>
    if isDigit r then
      if st.prev = -1 then none
      else
        let count : Int := ((r.toNat : Int) - 48) + 1
        unpackLoop isDigit rest
          { res := repeatRune (count - 1).toNat st.prev st.res, prev := -1,
            hasLetter := st.hasLetter }
    else
      unpackLoop isDigit rest
        { res := if st.prev ≠ -1 then st.res ++ runeString st.prev else st.res,
          prev := (r.toNat : Int), hasLetter := true }

/-- The function `unpack`: the string returned, and the error if any.  The
declaration `var prev rune` gives `prev` the zero value `0`. -/
def unpack (isDigit : Char → Bool) (s : String) : String × Option UnpackError :=
  if s = "" then ("", none)
  else
    match unpackLoop isDigit s.data { res := [], prev := 0, hasLetter := false } with
    | none => ("", some UnpackError.incorrectInput)
    | some st =>
      let res := if st.prev ≠ -1 then st.res ++ runeString st.prev else st.res
      if !st.hasLetter then ("", some UnpackError.incorrectInput)
      else (String.mk res, none)

end Unpack

/-! # l2.11: the anagram grouper

A shallow embedding of `src/l2.11/main.go`.  A Go `map[string][]string` is a
list of entries with distinct keys; `strings.ToLower`, which is not part of
the repository, maps every character through the parameter `lower`. -/

namespace Anagram

/-- A Go `map[string][]string`: its entries, with distinct keys. -/
abbrev GoMap := List (String × List String)

/-- The entry of key `k`, if there is one. -/
def get? : GoMap → String → Option (List String)
  | [], _ => none
  | (a, b) :: rest, k => if a = k then some b else get? rest k

/-- The expression `m[k]`: the value of key `k`, `nil` when absent. -/
def mapGet (m : GoMap) (k : String) : List String :=
  (get? m k).getD []

/-- The assignment `m[k] = v`. -/
def mapSet (m : GoMap) (k : String) (v : List String) : GoMap :=
  (k, v) :: m.filter (fun e => decide (e.1 ≠ k))

/-- The key of lines 12-18: the lower-cased characters of the word in
ascending order (what sorting yields does not depend on the algorithm). -/
def sortKey (lower : Char → Char) (word : String) : String :=
  String.mk ((word.data.map lower).insertionSort (· ≤ ·))

/-- The first loop, lines 11-20: `tmpMap[key] = append(tmpMap[key], word)`. -/
def tmpMap (lower : Char → Char) : List String → GoMap → GoMap
  | [], m => m
  | word :: rest, m =>
    let key := sortKey lower word
    tmpMap lower rest (mapSet m key (mapGet m key ++ [word]))

/-- The second loop, lines 22-26, over the entries of `tmpMap` in the order
`entries`: `resultMap[anagrams[0]] = anagrams` when `len(anagrams) >= 2`. -/
def collect : List (String × List String) → GoMap → GoMap
  | [], res => res
  | (_, anagrams) :: rest, res =>
    if anagrams.length ≥ 2 then collect rest (mapSet res (anagrams.headD "") anagrams)
    else collect rest res

/-- The function `anagram`, the entries of `tmpMap` being visited in the
order in which the model holds them. -/
def anagram (lower : Char → Char) (words : List String) : GoMap :=
  collect (tmpMap lower words []) []

/-- The input words that have the key `key`, in input order. -/
def group (lower : Char → Char) (words : List String) (key : String) : List String :=
  words.filter (fun w => decide (sortKey lower w = key))

end Anagram

namespace Grep

/-! ## Machine-integer facts -/

theorem wrapInt_of_inRange {x : Int} (h1 : -9223372036854775808 ≤ x)
    (h2 : x < 9223372036854775808) : wrapInt x = x := by
  unfold wrapInt; omega

theorem wrapInt_of_above {x : Int} (h1 : 9223372036854775808 ≤ x)
    (h2 : x < 27670116110564327424) : wrapInt x = x - 18446744073709551616 := by
  unfold wrapInt; omega

theorem wrapInt_lt (x : Int) : wrapInt x < 9223372036854775808 := by
  unfold wrapInt; omega

theorem winStart_nonneg (config : Config) (m : Int) : 0 ≤ winStart config m := by
  unfold winStart; simp only; split <;> omega

theorem winStop_lt (config : Config) (lines : List String) (m : Int) :
    winStop config lines m < (lines.length : Int) := by
  unfold winStop; simp only; split <;> omega

/-! ## The inner loop -/

theorem lineAt_of_inRange (lines : List String) {idx : Int} (h0 : 0 ≤ idx)
    (h1 : idx < (lines.length : Int)) :
    lineAt lines idx = some (lines.getD idx.toNat "") := by
  have h : idx.toNat < lines.length := by omega
  simp [lineAt, h0, List.getD, List.getElem?_eq_getElem h]

theorem intRun_mem {i : Int} {k : Nat} {x : Int} :
    x ∈ intRun i k ↔ i ≤ x ∧ x < i + k := by
  induction k generalizing i with
  | zero => simp [intRun]
  | succ k ih =>
    simp only [intRun, List.mem_cons, ih]
    constructor
    · rintro (h | h) <;> omega
    · intro h
      by_cases hx : x = i
      · exact Or.inl hx
      · right; omega

theorem printLines_eq (config : Config) (lines : List String) (k : Nat) (idx : Int)
    (st : PState) (h0 : 0 ≤ idx) (h1 : idx + k ≤ (lines.length : Int)) :
    printLines config lines k idx st =
      some { out := st.out ++ (intRun idx k).map (lineRec config lines),
             last := if k = 0 then st.last else idx + k - 1 } := by
  induction k generalizing idx st with
  | zero => simp [printLines, intRun]
  | succ k ih =>
    have hlt : idx < (lines.length : Int) := by omega
    rw [printLines, lineAt_of_inRange lines h0 hlt]
    simp only
    rw [ih (idx + 1) _ (by omega) (by push_cast at h1 ⊢; omega)]
    simp only [intRun, List.map_cons, List.append_assoc, List.singleton_append, lineRec]
    congr 2
    split <;> simp <;> omega

/-! ## One iteration of the loop over the matches -/

theorem printStart_nonneg (config : Config) (st : PState) (m : Int) (h : -1 ≤ st.last) :
    0 ≤ printStart config st m := by
  have := winStart_nonneg config m
  unfold printStart; split <;> omega

theorem printMatch_eq (config : Config) (lines : List String) (st : PState) (m : Int)
    (h : -1 ≤ st.last) :
    printMatch config lines st m =
      some { out := st.out ++ sepOf config st m ++
               (intRun (printStart config st m) (printCount config lines st m)).map
                 (lineRec config lines),
             last := if printCount config lines st m = 0 then st.last
                     else printStart config st m + printCount config lines st m - 1 } := by
  have hs := printStart_nonneg config st m h
  have he := winStop_lt config lines m
  have hk : printStart config st m + printCount config lines st m ≤ (lines.length : Int) ∨
      printCount config lines st m = 0 := by
    unfold printCount; omega
  unfold printMatch
  simp only
  rw [show (if st.last ≠ -1 ∧ winStart config m ≤ st.last then st.last + 1
        else winStart config m) = printStart config st m from rfl,
      show (winStop config lines m + 1 - printStart config st m).toNat =
        printCount config lines st m from rfl]
  rcases hk with hk | hk
  · rw [printLines_eq config lines _ _ _ hs hk]
    simp only [sepOf]
    split <;> simp
  · rw [hk]
    simp only [printLines, intRun, List.map_nil, List.append_nil, if_true, sepOf]
    split <;> simp

/-- An invariant of one iteration is an invariant of the whole loop, and the
loop returns. -/
theorem printLoop_invariant (config : Config) (lines : List String) (P : PState → Prop)
    (hstep : ∀ st m, P st → ∃ st', printMatch config lines st m = some st' ∧ P st')
    (ms : List Int) (st : PState) (h : P st) :
    ∃ st', printLoop config lines ms st = some st' ∧ P st' := by
  induction ms generalizing st with
  | nil => exact ⟨st, rfl, h⟩
  | cons m ms ih =>
    obtain ⟨st1, h1, hP1⟩ := hstep st m h
    obtain ⟨st2, h2, hP2⟩ := ih st1 hP1
    exact ⟨st2, by simp [printLoop, h1, h2], hP2⟩

theorem lineIdxs_append (a b : List Out) : lineIdxs (a ++ b) = lineIdxs a ++ lineIdxs b := by
  induction a with
  | nil => rfl
  | cons r a ih => cases r <;> simp [lineIdxs, ih]

theorem lineIdxs_map_lineRec (config : Config) (lines : List String) (l : List Int) :
    lineIdxs (l.map (lineRec config lines)) = l := by
  induction l with
  | nil => rfl
  | cons i l ih => simp [lineIdxs, lineRec, ih]

theorem lineIdxs_sepOf (config : Config) (st : PState) (m : Int) :
    lineIdxs (sepOf config st m) = [] := by
  unfold sepOf; split <;> rfl

theorem mem_lineIdxs {out : List Out} {i : Int} :
    i ∈ lineIdxs out ↔ ∃ t, Out.line i t ∈ out := by
  induction out with
  | nil => simp [lineIdxs]
  | cons r out ih =>
    cases r with
    | line j t =>
      simp only [lineIdxs, List.mem_cons, ih, Out.line.injEq]
      constructor
      · rintro (h | ⟨t', h⟩)
        · exact ⟨t, Or.inl ⟨h, rfl⟩⟩
        · exact ⟨t', Or.inr h⟩
      · rintro ⟨t', (h | h)⟩
        · exact Or.inl h.1
        · exact Or.inr ⟨t', h⟩
    | _ => simp [lineIdxs, ih]

theorem printMatch_safe (config : Config) (lines : List String) (st : PState) (m : Int)
    (h : Safe lines st) :
    ∃ st', printMatch config lines st m = some st' ∧ Safe lines st' := by
  obtain ⟨h1, h2, h3, h4⟩ := h
  refine ⟨_, printMatch_eq config lines st m h1, ?_, ?_, ?_, ?_⟩
  all_goals simp only
  · have := printStart_nonneg config st m h1
    split <;> omega
  · have := winStop_lt config lines m
    split
    · exact h2
    · unfold printCount at *; omega
  · intro r hr
    simp only [List.mem_append, List.mem_map] at hr
    rcases hr with (hr | hr) | ⟨i, _, rfl⟩
    · exact h3 r hr
    · unfold sepOf at hr; split at hr
      · simp at hr; subst hr; rfl
      · simp at hr
    · rfl
  · intro i hi
    rw [lineIdxs_append, lineIdxs_append, lineIdxs_sepOf, lineIdxs_map_lineRec] at hi
    simp only [List.append_nil, List.mem_append, intRun_mem] at hi
    rcases hi with hi | hi
    · exact h4 i hi
    · have := printStart_nonneg config st m h1
      have := winStop_lt config lines m
      unfold printCount at hi; omega

theorem printLoop_safe (config : Config) (lines : List String) (ms : List Int) :
    ∃ st, printLoop config lines ms { out := [], last := -1 } = some st ∧ Safe lines st := by
  apply printLoop_invariant config lines (Safe lines) (printMatch_safe config lines)
  refine ⟨by simp, ?_, by simp, by simp [lineIdxs]⟩
  simp only; omega

/-! ## Block format, count-only mode and index safety -/

theorem printLoop_single (config : Config) (lines : List String) (st : PState) (m : Int) :
    printLoop config lines [m] st = printMatch config lines st m := by
  simp only [printLoop]
  cases printMatch config lines st m <;> rfl

theorem intRun_head (i : Int) {k : Nat} (hk : k ≠ 0) : (intRun i k).head? = some i := by
  cases k with
  | zero => exact absurd rfl hk
  | succ k => rfl

theorem intRun_getLast (i : Int) {k : Nat} (hk : k ≠ 0) :
    (intRun i k).getLast? = some (i + k - 1) := by
  induction k generalizing i with
  | zero => exact absurd rfl hk
  | succ k ih =>
    cases k with
    | zero => simp [intRun]
    | succ k =>
      have := ih (i + 1) (by omega)
      simp only [intRun] at this ⊢
      rw [List.getLast?_cons_cons, this]
      congr 1; push_cast; omega

/-- The output of a one-match run, as indices. -/
theorem printResults_single (config : Config) (filename : String) (lines : List String)
    (m : Int) (hc : config.count = false) :
    ∃ out, printResults config filename lines [m] = some out ∧
      lineIdxs out = intRun (winStart config m)
        (winStop config lines m + 1 - winStart config m).toNat := by
  have h := printMatch_eq config lines { out := [], last := -1 } m (by simp)
  have hsep : sepOf config { out := [], last := -1 } m = [] := by simp [sepOf]
  have hps : printStart config { out := [], last := -1 } m = winStart config m := by
    simp [printStart]
  have hpc : printCount config lines { out := [], last := -1 } m =
      (winStop config lines m + 1 - winStart config m).toNat := by
    simp [printCount, hps]
  rw [hsep, hps, hpc] at h
  refine ⟨[Out.header filename] ++ (intRun (winStart config m)
      (winStop config lines m + 1 - winStart config m).toNat).map (lineRec config lines) ++
      [Out.blank], ?_, ?_⟩
  · simp [printResults, hc, printLoop_single, h]
  · simp [lineIdxs_append, lineIdxs, lineIdxs_map_lineRec]

/-- C6. Count-only mode: when `count` is set, `printResults` emits exactly one
record, the summary `<file>:<count>` whose count is the number of match
indices; no line, no separator and no blank line is emitted. -/
theorem printResults_countOnly (config : Config) (filename : String) (lines : List String)
    (matchList : List Int) (hc : config.count = true) :
    printResults config filename lines matchList = some [Out.count filename matchList.length] ∧
    [Out.count filename matchList.length].map Out.render =
      [filename ++ ":" ++ toString matchList.length] := by
  constructor
  · simp [printResults, hc]
  · rfl

theorem printResults_countOnly_witness :
    printResults { baseConfig with count := true, before := 1, after := 1 } "a.txt"
        ["foo", "bar", "foo"] [0, 2] = some [Out.count "a.txt" 2] ∧
    [Out.count "a.txt" 2].map Out.render = ["a.txt:2"] :=
  printResults_countOnly { baseConfig with count := true, before := 1, after := 1 } "a.txt"
    ["foo", "bar", "foo"] [0, 2] rfl

/-- C5, as stated, fails in count-only mode: the printed output is the single
line `<file>:<count>`; it does not start with the header line `<file>:` and
does not end with a blank line. -/
theorem printResults_block_counterexample :
    (printResults { baseConfig with count := true } "a.txt" ["foo"] [0]).map (List.map Out.render)
      = some ["a.txt:1"] ∧
    ¬ ∃ body : List String,
      (printResults { baseConfig with count := true } "a.txt" ["foo"] [0]).map
        (List.map Out.render) = some (("a.txt" ++ ":") :: body ++ [""]) := by
  refine ⟨by decide, ?_⟩
  rintro ⟨body, h⟩
  have h1 : (printResults { baseConfig with count := true } "a.txt" ["foo"] [0]).map
      (List.map Out.render) = some ["a.txt:1"] := by decide
  rw [h1] at h
  have h2 := congrArg (Option.map List.length) h
  simp at h2

/-- C5, amended. Per-file output block format: when `count` is unset the
output of `printResults` is the header record `<filename>:` first, then only
line and separator records, then exactly one blank record; when `count` is
set it is the single record `<filename>:<count>`, with no header line of its
own and no blank line. -/
theorem printResults_block (config : Config) (filename : String) (lines : List String)
    (matchList : List Int) :
    (config.count = false ∧ ∃ body : List Out,
      printResults config filename lines matchList =
        some (Out.header filename :: body ++ [Out.blank]) ∧
      (∀ r ∈ body, r.isBody = true) ∧
      (Out.header filename).render = filename ++ ":" ∧ Out.blank.render = "") ∨
    (config.count = true ∧
      printResults config filename lines matchList =
        some [Out.count filename matchList.length]) := by
  cases hc : config.count with
  | true => right; exact ⟨rfl, by simp [printResults, hc]⟩
  | false =>
    left
    refine ⟨rfl, ?_⟩
    by_cases hm : matchList.length = 0
    · exact ⟨[], by simp [printResults, hc, hm], by simp, rfl, rfl⟩
    · obtain ⟨st, hst, -, -, hbody, -⟩ := printLoop_safe config lines matchList
      exact ⟨st.out, by simp [printResults, hc, hm, hst], hbody, rfl, rfl⟩

/-- C10. Index safety: for every configuration (`before` and `after` are
arbitrary integers), every line list and every match list, `printResults`
returns without an out-of-range access and every line index it emits lies in
`[0, len(lines) - 1]`.  In particular a single match at index `0` with
`before = 5` starts printing at line `0`, and a single match at the last line
with `after = 5` prints through the last line and no further. -/
theorem printResults_index_safe :
    (∀ (config : Config) (filename : String) (lines : List String) (matchList : List Int),
      ∃ out, printResults config filename lines matchList = some out ∧
        ∀ idx text, Out.line idx text ∈ out →
          0 ≤ idx ∧ idx ≤ (lines.length : Int) - 1 ∧ (lineAt lines idx).isSome = true) ∧
    (∀ (config : Config) (filename : String) (lines : List String),
      config.count = false → config.before = 5 → 0 ≤ config.after → config.after ≤ maxInt →
      lines ≠ [] →
      ∃ out, printResults config filename lines [0] = some out ∧
        (lineIdxs out).head? = some 0) ∧
    (∀ (config : Config) (filename : String) (lines : List String),
      config.count = false → config.after = 5 → 0 ≤ config.before → config.before ≤ maxInt →
      lines ≠ [] → (lines.length : Int) ≤ 4611686018427387904 →
      ∃ out, printResults config filename lines [(lines.length : Int) - 1] = some out ∧
        (lineIdxs out).getLast? = some ((lines.length : Int) - 1)) := by
  refine ⟨?_, ?_, ?_⟩
  · intro config filename lines matchList
    have key : ∀ out : List Out, (∀ i ∈ lineIdxs out, 0 ≤ i ∧ i < (lines.length : Int)) →
        ∀ idx text, Out.line idx text ∈ out →
          0 ≤ idx ∧ idx ≤ (lines.length : Int) - 1 ∧ (lineAt lines idx).isSome = true := by
      intro out h idx text hmem
      obtain ⟨h0, h1⟩ := h idx (mem_lineIdxs.2 ⟨text, hmem⟩)
      exact ⟨h0, by omega, by simp [lineAt_of_inRange lines h0 h1]⟩
    by_cases hc : config.count = true
    · exact ⟨[Out.count filename matchList.length], by simp [printResults, hc],
        key _ (by simp [lineIdxs])⟩
    · by_cases hm : matchList.length = 0
      · exact ⟨[Out.header filename] ++ [Out.blank], by simp [printResults, hc, hm],
          key _ (by simp [lineIdxs])⟩
      · obtain ⟨st, hst, -, -, -, hidx⟩ := printLoop_safe config lines matchList
        refine ⟨[Out.header filename] ++ st.out ++ [Out.blank],
          by simp [printResults, hc, hm, hst], key _ ?_⟩
        simpa [lineIdxs_append, lineIdxs] using hidx
  · intro config filename lines hc hb ha0 ha1 hne
    obtain ⟨out, hout, hidx⟩ := printResults_single config filename lines 0 hc
    refine ⟨out, hout, ?_⟩
    have hlen : 0 < (lines.length : Int) := by
      have := List.length_pos.2 hne; omega
    have hs : winStart config 0 = 0 := by
      unfold winStart wrapInt; simp only [hb]; decide
    have he : 0 ≤ winStop config lines 0 := by
      unfold winStop; simp only [maxInt] at *
      rw [wrapInt_of_inRange (by omega) (by omega)]
      split <;> omega
    rw [hidx, hs]
    exact intRun_head 0 (by omega)
  · intro config filename lines hc ha hb0 hb1 hne hlen2
    obtain ⟨out, hout, hidx⟩ :=
      printResults_single config filename lines ((lines.length : Int) - 1) hc
    refine ⟨out, hout, ?_⟩
    have hlen : 0 < (lines.length : Int) := by
      have := List.length_pos.2 hne; omega
    have hs := winStart_nonneg config ((lines.length : Int) - 1)
    have hs2 : winStart config ((lines.length : Int) - 1) ≤ (lines.length : Int) - 1 := by
      unfold winStart; simp only [maxInt] at *
      rw [wrapInt_of_inRange (by omega) (by omega)]
      split <;> omega
    have he : winStop config lines ((lines.length : Int) - 1) = (lines.length : Int) - 1 := by
      unfold winStop; simp only [ha]
      rw [wrapInt_of_inRange (by omega) (by omega)]
      split <;> omega
    rw [hidx, he, intRun_getLast _ (by omega)]
    congr 1; omega

theorem printResults_index_safe_witness :
    (∃ out, printResults { baseConfig with before := 5 } "a.txt" ["x", "y", "z"] [0] = some out ∧
        (lineIdxs out).head? = some 0) ∧
    (∃ out, printResults { baseConfig with after := 5 } "a.txt" ["x", "y", "z"]
        [(([("x" : String), "y", "z"].length : Int)) - 1] = some out ∧
        (lineIdxs out).getLast? = some ((([("x" : String), "y", "z"].length : Int)) - 1)) :=
  ⟨printResults_index_safe.2.1 { baseConfig with before := 5 } "a.txt" ["x", "y", "z"]
      rfl rfl (by decide) (by decide) (by decide),
   printResults_index_safe.2.2 { baseConfig with after := 5 } "a.txt" ["x", "y", "z"]
      rfl rfl (by decide) (by decide) (by decide) (by decide)⟩

/-! ## The canonical rendering -/

theorem gapRender_intRun (f : Int → Out) (i : Int) (k : Nat) :
    gapRender f (intRun i k) = (intRun i k).map f := by
  induction k generalizing i with
  | zero => rfl
  | succ k ih =>
    cases k with
    | zero => rfl
    | succ k =>
      have h := ih (i + 1)
      simp only [intRun] at h ⊢
      simp only [gapRender, lt_irrefl, if_false, List.map_cons]
      rw [h]; rfl

theorem gapRender_append (f : Int → Out) (a : List Int) (x y : Int) (b : List Int)
    (hx : a.getLast? = some x) :
    gapRender f (a ++ y :: b) =
      gapRender f a ++ (if x + 1 < y then [Out.sep] else []) ++ gapRender f (y :: b) := by
  induction a with
  | nil => simp at hx
  | cons c a ih =>
    cases a with
    | nil =>
      simp at hx; subst hx
      simp only [List.cons_append, List.nil_append, gapRender]
      split <;> simp
    | cons d a =>
      rw [List.getLast?_cons_cons] at hx
      have h := ih hx
      simp only [List.cons_append, gapRender, List.append_eq] at h ⊢
      rw [h]
      split <;> simp

theorem pairwise_intRun (i : Int) (k : Nat) : (intRun i k).Pairwise (· < ·) := by
  induction k generalizing i with
  | zero => simp [intRun]
  | succ k ih =>
    simp only [intRun, List.pairwise_cons]
    refine ⟨fun x hx => ?_, ih (i + 1)⟩
    rw [intRun_mem] at hx; omega

theorem le_of_getLast {l : List Int} {x : Int} (hs : l.Pairwise (· < ·))
    (hl : l.getLast? = some x) : ∀ a ∈ l, a ≤ x := by
  induction l with
  | nil => simp
  | cons c l ih =>
    cases l with
    | nil => simp at hl; subst hl; simp
    | cons d l =>
      rw [List.getLast?_cons_cons] at hl
      rw [List.pairwise_cons] at hs
      have h := ih hs.2 hl
      intro a ha
      rcases List.mem_cons.1 ha with rfl | ha
      · have h1 := hs.1 d (List.mem_cons_self _ _)
        have h2 := h d (List.mem_cons_self _ _)
        omega
      · exact h a ha

theorem mem_of_getLast {l : List Int} {x : Int} (hl : l.getLast? = some x) : x ∈ l :=
  List.mem_of_getLast?_eq_some hl

/-! ## Window arithmetic -/

theorem winStart_cases (config : Config) (m : Int) (hb0 : 0 ≤ config.before)
    (hb1 : config.before ≤ 9223372036854775807) (hm0 : 0 ≤ m) (hm1 : m ≤ 9223372036854775807) :
    (winStart config m = 0 ∧ m - config.before ≤ 0) ∨
    (winStart config m = m - config.before ∧ 0 ≤ m - config.before) := by
  unfold winStart; simp only
  rw [wrapInt_of_inRange (by omega) (by omega)]
  split <;> omega

theorem winStop_cases (config : Config) (lines : List String) (m : Int)
    (ha0 : 0 ≤ config.after) (ha1 : config.after ≤ 9223372036854775807) (hm0 : 0 ≤ m) (hm1 : m ≤ 9223372036854775807) :
    (m + config.after ≤ 9223372036854775807 ∧
      ((winStop config lines m = (lines.length : Int) - 1 ∧
          (lines.length : Int) ≤ m + config.after) ∨
       (winStop config lines m = m + config.after ∧
          m + config.after < (lines.length : Int)))) ∨
    (9223372036854775807 < m + config.after ∧ winStop config lines m < 0) := by
  unfold winStop; simp only
  by_cases h : m + config.after ≤ 9223372036854775807
  · left
    rw [wrapInt_of_inRange (by omega) (by omega)]
    refine ⟨h, ?_⟩
    split <;> omega
  · right
    rw [wrapInt_of_above (by omega) (by omega)]
    refine ⟨by omega, ?_⟩
    split <;> omega

/-! ## The loop invariant -/

theorem printStart_cases (config : Config) (st : PState) (m : Int) :
    (st.last ≠ -1 ∧ winStart config m ≤ st.last ∧ printStart config st m = st.last + 1) ∨
    ((st.last = -1 ∨ st.last < winStart config m) ∧
      printStart config st m = winStart config m) := by
  unfold printStart
  by_cases h : st.last ≠ -1 ∧ winStart config m ≤ st.last
  · rw [if_pos h]; exact Or.inl ⟨h.1, h.2, rfl⟩
  · rw [if_neg h]; right
    refine ⟨?_, rfl⟩
    by_cases h1 : st.last = -1
    · exact Or.inl h1
    · right
      have : ¬ winStart config m ≤ st.last := fun h2 => h ⟨h1, h2⟩
      omega

theorem sepOf_cases (config : Config) (st : PState) (m : Int) :
    (st.last ≠ -1 ∧ st.last + 1 < winStart config m ∧ sepOf config st m = [Out.sep]) ∨
    ((st.last = -1 ∨ winStart config m ≤ st.last + 1) ∧ sepOf config st m = []) := by
  unfold sepOf
  by_cases h : st.last ≠ -1 ∧ winStart config m > st.last + 1
  · rw [if_pos h]; exact Or.inl ⟨h.1, h.2, rfl⟩
  · rw [if_neg h]; right
    refine ⟨?_, rfl⟩
    by_cases h1 : st.last = -1
    · exact Or.inl h1
    · right
      have : ¬ winStart config m > st.last + 1 := fun h2 => h ⟨h1, h2⟩
      omega

theorem printMatch_loopInv (config : Config) (lines : List String) (prev : List Int)
    (st : PState) (m : Int)
    (hb0 : 0 ≤ config.before) (hb1 : config.before ≤ maxInt)
    (ha0 : 0 ≤ config.after) (ha1 : config.after ≤ maxInt)
    (hn : (lines.length : Int) ≤ 4611686018427387904)
    (hprev : ∀ m' ∈ prev, m' < m) (hm0 : 0 ≤ m) (hm1 : m < (lines.length : Int))
    (h : LoopInv config lines prev st) :
    ∃ st', printMatch config lines st m = some st' ∧ LoopInv config lines (prev ++ [m]) st' := by
  obtain ⟨idxs, hout, hsorted, hmem, hlast⟩ := h
  unfold LoopInv at *
  simp only [maxInt] at *
  have hws := winStart_cases config m hb0 hb1 hm0 (by omega)
  have hwe := winStop_cases config lines m ha0 ha1 hm0 (by omega)
  have hge : -1 ≤ st.last := by
    rcases hlast with ⟨hl, -⟩ | ⟨m0, -, hno, h00, h01, hl, -⟩
    · omega
    · have := winStop_cases config lines m0 ha0 ha1 h00 (by omega)
      omega
  refine ⟨_, printMatch_eq config lines st m hge, ?_⟩
  obtain ⟨ps, hps⟩ : ∃ ps, ps = printStart config st m := ⟨_, rfl⟩
  obtain ⟨k, hk⟩ : ∃ k, k = printCount config lines st m := ⟨_, rfl⟩
  have hk' : k = (winStop config lines m + 1 - ps).toNat := by rw [hk, hps]; rfl
  have hpsc := printStart_cases config st m
  have hsepc := sepOf_cases config st m
  rw [← hps] at hpsc
  simp only [← hps, ← hk]
  clear hps hk
  refine ⟨idxs ++ intRun ps k, ?_, ?_, ?_, ?_⟩
  · -- the output is canonical
    rcases hlast with ⟨hl, hnil⟩ | ⟨m0, -, hno, h00, h01, hl, hgl⟩
    · subst hnil
      have hsep : sepOf config st m = [] := by
        rcases hsepc with ⟨h1, -⟩ | ⟨-, h1⟩
        · exact absurd hl h1
        · exact h1
      simp [hout, hsep, gapRender, gapRender_intRun]
    · have hws0 := winStart_cases config m0 hb0 hb1 h00 (by omega)
      have hwe0 := winStop_cases config lines m0 ha0 ha1 h00 (by omega)
      cases k with
      | zero =>
        have hsep : sepOf config st m = [] := by
          rcases hsepc with ⟨h1, h2, -⟩ | ⟨-, h1⟩
          · exfalso; omega
          · exact h1
        simp [hout, hsep, intRun]
      | succ k =>
        have hsep : sepOf config st m = if st.last + 1 < ps then [Out.sep] else [] := by
          rcases hsepc with ⟨h1, h2, h3⟩ | ⟨h1, h3⟩
          · rw [h3, if_pos (by omega)]
          · rw [h3, if_neg (by omega)]
        have hg := gapRender_append (lineRec config lines) idxs st.last ps
          (intRun (ps + 1) k) hgl
        have hr := gapRender_intRun (lineRec config lines) ps (k + 1)
        simp only [intRun] at hr ⊢
        rw [hg, hr, hout, hsep]
  · -- the indices are ascending
    rw [List.pairwise_append]
    refine ⟨hsorted, pairwise_intRun ps k, ?_⟩
    intro a ha b hb
    rw [intRun_mem] at hb
    rcases hlast with ⟨-, hnil⟩ | ⟨m0, -, hno, h00, h01, hl, hgl⟩
    · subst hnil; simp at ha
    · have := le_of_getLast hsorted hgl a ha
      omega
  · -- the indices are the lines of the windows
    intro i
    simp only [List.mem_append, intRun_mem, List.mem_singleton]
    constructor
    · rintro (hi | hi)
      · obtain ⟨m', hm', h1, h2⟩ := (hmem i).1 hi
        exact ⟨m', Or.inl hm', h1, h2⟩
      · exact ⟨m, Or.inr rfl, by omega, by omega⟩
    · rintro ⟨m', hm' | rfl, h1, h2⟩
      · exact Or.inl ((hmem i).2 ⟨m', hm', h1, h2⟩)
      · by_cases hi : ps ≤ i
        · right; omega
        · left
          rcases hlast with ⟨hl, -⟩ | ⟨m0, hm0mem, hno, h00, h01, hl, hgl⟩
          · exfalso; omega
          · have hws0 := winStart_cases config m0 hb0 hb1 h00 (by omega)
            have hlt := hprev m0 hm0mem
            exact (hmem i).2 ⟨m0, hm0mem, by omega, by omega⟩
  · -- the watermark
    by_cases hk0 : k = 0
    · rw [if_pos hk0]
      subst hk0
      rcases hlast with ⟨hl, hnil⟩ | ⟨m0, hm0mem, hno, h00, h01, hl, hgl⟩
      · left; exact ⟨hl, by simp [intRun, hnil]⟩
      · right
        exact ⟨m0, List.mem_append_left _ hm0mem, hno, h00, h01, hl, by simpa [intRun] using hgl⟩
    · rw [if_neg hk0]
      right
      have hrun := intRun_getLast ps hk0
      refine ⟨m, List.mem_append_right _ (List.mem_singleton_self m), ?_, hm0, hm1, ?_, ?_⟩
      · have := winStart_nonneg config m
        rcases hlast with ⟨hl, -⟩ | ⟨m0, -, hno, h00, h01, hl, -⟩ <;> omega
      · omega
      · rw [List.getLast?_append, hrun]; rfl

theorem printLoop_loopInv (config : Config) (lines : List String)
    (hb0 : 0 ≤ config.before) (hb1 : config.before ≤ maxInt)
    (ha0 : 0 ≤ config.after) (ha1 : config.after ≤ maxInt)
    (hn : (lines.length : Int) ≤ 4611686018427387904)
    (ms prev : List Int) (st : PState)
    (hsorted : (prev ++ ms).Pairwise (· < ·))
    (hrange : ∀ m ∈ ms, 0 ≤ m ∧ m < (lines.length : Int))
    (h : LoopInv config lines prev st) :
    ∃ st', printLoop config lines ms st = some st' ∧ LoopInv config lines (prev ++ ms) st' := by
  induction ms generalizing prev st with
  | nil => exact ⟨st, rfl, by simpa using h⟩
  | cons m ms ih =>
    have hlt : ∀ m' ∈ prev, m' < m := by
      intro m' hm'
      exact (List.pairwise_append.1 hsorted).2.2 m' hm' m (List.mem_cons_self _ _)
    obtain ⟨hm0, hm1⟩ := hrange m (List.mem_cons_self _ _)
    obtain ⟨st1, h1, hinv1⟩ :=
      printMatch_loopInv config lines prev st m hb0 hb1 ha0 ha1 hn hlt hm0 hm1 h
    have hs' : ((prev ++ [m]) ++ ms).Pairwise (· < ·) := by simpa using hsorted
    obtain ⟨st2, h2, hinv2⟩ := ih (prev ++ [m]) st1 hs'
      (fun x hx => hrange x (List.mem_cons_of_mem _ hx)) hinv1
    exact ⟨st2, by simp [printLoop, h1, h2], by simpa using hinv2⟩

/-- The output of `printResults` in non-count mode: the header, the canonical
rendering of the ascending list of the lines of all windows, the blank line. -/
theorem printResults_canonical (config : Config) (filename : String) (lines : List String)
    (ms : List Int) (hc : config.count = false) (hok : RunOk config lines ms) :
    ∃ idxs : List Int,
      printResults config filename lines ms =
        some (Out.header filename :: gapRender (lineRec config lines) idxs ++ [Out.blank]) ∧
      idxs.Pairwise (· < ·) ∧
      ∀ i, i ∈ idxs ↔ ∃ m ∈ ms, winStart config m ≤ i ∧ i ≤ winStop config lines m := by
  by_cases hm : ms.length = 0
  · have hnil : ms = [] := List.length_eq_zero.1 hm
    subst hnil
    exact ⟨[], by simp [printResults, hc, gapRender], List.Pairwise.nil, by simp⟩
  · have hinit : LoopInv config lines [] { out := [], last := -1 } :=
      ⟨[], rfl, List.Pairwise.nil, by simp, Or.inl ⟨rfl, rfl⟩⟩
    obtain ⟨st, hst, idxs, hout, hsorted, hmem, -⟩ :=
      printLoop_loopInv config lines hok.before_nonneg hok.before_le hok.after_nonneg
        hok.after_le hok.length_le ms [] _ (by simpa using hok.increasing) hok.inRange hinit
    refine ⟨idxs, ?_, hsorted, by simpa using hmem⟩
    simp [printResults, hc, hm, hst, hout]

theorem lineIdxs_gapRender (config : Config) (lines : List String) (idxs : List Int) :
    lineIdxs (gapRender (lineRec config lines) idxs) = idxs := by
  induction idxs with
  | nil => rfl
  | cons i l ih =>
    cases l with
    | nil => simp [gapRender, lineIdxs, lineRec]
    | cons j l =>
      simp only [gapRender]
      split <;> simp [lineIdxs, lineRec, ih]

theorem lineIdxs_block (config : Config) (lines : List String) (filename : String)
    (idxs : List Int) :
    lineIdxs (Out.header filename :: gapRender (lineRec config lines) idxs ++ [Out.blank])
      = idxs := by
  simp [lineIdxs, lineIdxs_append, lineIdxs_gapRender]

/-! ## Separators of the canonical rendering -/

theorem lineRec_ne_sep (config : Config) (lines : List String) (i : Int) :
    lineRec config lines i ≠ Out.sep := by
  simp [lineRec]

theorem gapRender_cons_head (f : Int → Out) (i : Int) (l : List Int) :
    ∃ rest, gapRender f (i :: l) = f i :: rest := by
  cases l with
  | nil => exact ⟨[], rfl⟩
  | cons j l => exact ⟨_, rfl⟩

/-- A separator of the canonical rendering stands in a gap: the indices
before it end at some `x`, those after it start at some `y`, and
`x + 1 < y`. -/
theorem gapRender_sep_split (config : Config) (lines : List String) (idxs : List Int)
    (hs : idxs.Pairwise (· < ·)) (L R : List Out)
    (h : gapRender (lineRec config lines) idxs = L ++ Out.sep :: R) :
    ∃ x y, x + 1 < y ∧ x ∈ idxs ∧ y ∈ idxs ∧
      (∀ i ∈ lineIdxs L, i ≤ x) ∧ (∀ i ∈ lineIdxs R, y ≤ i) := by
  induction idxs generalizing L with
  | nil =>
    simp [gapRender] at h
  | cons i l ih =>
    cases l with
    | nil =>
      cases L with
      | nil => simp [gapRender, lineRec] at h
      | cons a L => simp [gapRender] at h
    | cons j l =>
      rw [List.pairwise_cons] at hs
      have hij : i < j := hs.1 j (List.mem_cons_self _ _)
      cases L with
      | nil => simp [gapRender, lineRec] at h
      | cons a L =>
        simp only [gapRender, List.cons_append, List.cons.injEq] at h
        obtain ⟨ha, h⟩ := h
        have hrec : ∀ L', gapRender (lineRec config lines) (j :: l) = L' ++ Out.sep :: R →
            lineIdxs (a :: L) = i :: lineIdxs L' →
            ∃ x y, x + 1 < y ∧ x ∈ i :: j :: l ∧ y ∈ i :: j :: l ∧
              (∀ i' ∈ lineIdxs (a :: L), i' ≤ x) ∧ (∀ i' ∈ lineIdxs R, y ≤ i') := by
          intro L' hL' hidx
          obtain ⟨x, y, hxy, hx, hy, hl, hr⟩ := ih hs.2 L' hL'
          refine ⟨x, y, hxy, List.mem_cons_of_mem _ hx, List.mem_cons_of_mem _ hy, ?_, hr⟩
          intro i' hi'
          rw [hidx] at hi'
          rcases List.mem_cons.1 hi' with rfl | hi'
          · have := hs.1 x hx; omega
          · exact hl i' hi'
        have hidxa : ∀ L', lineIdxs (a :: L') = i :: lineIdxs L' := by
          intro L'; rw [← ha]; rfl
        by_cases hgap : i + 1 < j
        · rw [if_pos hgap] at h
          cases L with
          | nil =>
            simp only [List.nil_append, List.cons.injEq, true_and] at h
            refine ⟨i, j, hgap, List.mem_cons_self _ _,
              List.mem_cons_of_mem _ (List.mem_cons_self _ _), ?_, ?_⟩
            · intro i' hi'
              rw [hidxa] at hi'
              simp [lineIdxs] at hi'
              omega
            · intro i' hi'
              rw [← h, lineIdxs_gapRender] at hi'
              rcases List.mem_cons.1 hi' with rfl | hi'
              · exact le_refl _
              · have := (List.pairwise_cons.1 hs.2).1 i' hi'; omega
          | cons b L =>
            simp only [List.cons_append, List.cons.injEq] at h
            obtain ⟨hb, h⟩ := h
            apply hrec L h
            rw [hidxa, ← hb]; rfl
        · rw [if_neg hgap] at h
          exact hrec L h (hidxa L)

/-- Two indices that are neighbours in an ascending index list and not
consecutive are rendered with exactly a separator between them. -/
theorem gapRender_infix (f : Int → Out) (idxs : List Int) (x y : Int)
    (hs : idxs.Pairwise (· < ·)) (hx : x ∈ idxs) (hy : y ∈ idxs) (hxy : x + 1 < y)
    (hbetween : ∀ i ∈ idxs, i ≤ x ∨ y ≤ i) :
    [f x, Out.sep, f y] <:+: gapRender f idxs := by
  induction idxs with
  | nil => simp at hx
  | cons i l ih =>
    rw [List.pairwise_cons] at hs
    by_cases hix : i = x
    · subst hix
      have hyl : y ∈ l := by
        rcases List.mem_cons.1 hy with h | h
        · omega
        · exact h
      cases l with
      | nil => simp at hyl
      | cons j l =>
        have hj : j = y := by
          have h1 := hs.1 j (List.mem_cons_self _ _)
          have h2 := hbetween j (List.mem_cons_of_mem _ (List.mem_cons_self _ _))
          rcases List.mem_cons.1 hyl with h | h
          · exact h.symm
          · have := (List.pairwise_cons.1 hs.2).1 y h
            omega
        subst hj
        obtain ⟨rest, hrest⟩ := gapRender_cons_head f j l
        simp only [gapRender, if_pos hxy]
        rw [hrest]
        exact ⟨[], rest, by simp⟩
    · have hxl : x ∈ l := by
        rcases List.mem_cons.1 hx with h | h
        · exact absurd h.symm hix
        · exact h
      have hyl : y ∈ l := by
        rcases List.mem_cons.1 hy with h | h
        · have := hs.1 x hxl; omega
        · exact h
      have h := ih hs.2 hxl hyl (fun a ha => hbetween a (List.mem_cons_of_mem _ ha))
      cases l with
      | nil => simp at hxl
      | cons j l =>
        simp only [gapRender]
        split
        · exact (h.trans (List.suffix_cons _ _).isInfix).trans (List.suffix_cons _ _).isInfix
        · exact h.trans (List.suffix_cons _ _).isInfix

/-- A line record of a given index occurs at one place only when the line
indices of the output have no duplicate. -/
theorem line_split_unique {l : List Out} (hnd : (lineIdxs l).Nodup) {x : Int}
    {A A' B B' : List Out} {t t' : String}
    (h : l = A ++ Out.line x t :: B) (h' : l = A' ++ Out.line x t' :: B') :
    A = A' ∧ B = B' := by
  induction A generalizing A' l with
  | nil =>
    cases A' with
    | nil =>
      rw [h] at h'
      simp only [List.nil_append, List.cons.injEq] at h'
      exact ⟨rfl, h'.2⟩
    | cons a A' =>
      exfalso
      rw [h] at h' hnd
      simp only [List.nil_append, List.cons_append, List.cons.injEq] at h'
      obtain ⟨-, hB⟩ := h'
      rw [hB] at hnd
      simp [lineIdxs, lineIdxs_append] at hnd
  | cons a A ih =>
    cases A' with
    | nil =>
      exfalso
      rw [h'] at h hnd
      simp only [List.nil_append, List.cons_append, List.cons.injEq] at h
      obtain ⟨-, hB⟩ := h
      rw [hB] at hnd
      simp [lineIdxs, lineIdxs_append] at hnd
    | cons a' A' =>
      have h2 := h
      rw [h'] at h2
      simp only [List.cons_append, List.cons.injEq] at h2
      obtain ⟨haa, htl⟩ := h2
      have hnd' : (lineIdxs (A ++ Out.line x t :: B)).Nodup := by
        rw [h] at hnd
        cases a <;> simp only [List.cons_append, lineIdxs, List.nodup_cons] at hnd
        all_goals first | exact hnd.2 | exact hnd
      obtain ⟨h1, h2⟩ := ih hnd' rfl htl.symm
      exact ⟨by rw [haa, h1], h2⟩

theorem block_sep_split {filename : String} {G L R : List Out}
    (h : Out.header filename :: G ++ [Out.blank] = L ++ Out.sep :: R) :
    ∃ L' R', L = Out.header filename :: L' ∧ R = R' ++ [Out.blank] ∧ G = L' ++ Out.sep :: R' := by
  cases L with
  | nil => simp at h
  | cons a L =>
    simp only [List.cons_append, List.cons.injEq] at h
    obtain ⟨ha, h⟩ := h
    rcases List.eq_nil_or_concat R with hR | ⟨R', b, hR⟩
    · subst hR
      have := (List.append_inj' h rfl).2
      simp at this
    · subst hR
      have h' : G ++ [Out.blank] = (L ++ Out.sep :: R') ++ [b] := by simpa using h
      obtain ⟨h1, h2⟩ := List.append_inj' h' rfl
      simp only [List.cons.injEq, and_true] at h2
      exact ⟨L, R', by rw [ha], by rw [← h2]; simp, h1⟩

/-- The windows of two touching matches cover every line between them. -/
theorem touching_covers (config : Config) (lines : List String) (ms : List Int)
    (hok : RunOk config lines ms) (m1 m2 : Int) (h1 : m1 ∈ ms) (h2 : m2 ∈ ms)
    (htouch : m2 - config.before ≤ (m1 + config.after) + 1)
    (x y : Int) (hx : ∃ m ∈ ms, winStart config m ≤ x ∧ x ≤ winStop config lines m)
    (hm1x : m1 ≤ x) (hxy : x + 1 < y) (hym2 : y ≤ m2) :
    ∃ m ∈ ms, winStart config m ≤ x + 1 ∧ x + 1 ≤ winStop config lines m := by
  obtain ⟨hb0, hb1, ha0, ha1, hn, -, hr⟩ := hok
  simp only [maxInt] at *
  obtain ⟨m', hm', hs', he'⟩ := hx
  obtain ⟨hr10, hr11⟩ := hr m1 h1
  obtain ⟨hr20, hr21⟩ := hr m2 h2
  obtain ⟨hr0, hr1⟩ := hr m' hm'
  have hws' := winStart_nonneg config m'
  have hwe' := winStop_cases config lines m' ha0 ha1 hr0 (by omega)
  have hws1 := winStart_cases config m1 hb0 hb1 hr10 (by omega)
  have hwe1 := winStop_cases config lines m1 ha0 ha1 hr10 (by omega)
  have hws2 := winStart_cases config m2 hb0 hb1 hr20 (by omega)
  have hwe2 := winStop_cases config lines m2 ha0 ha1 hr20 (by omega)
  by_cases hc1 : x + 1 ≤ winStop config lines m'
  · exact ⟨m', hm', by omega, hc1⟩
  · by_cases hc2 : x + 1 ≤ winStop config lines m1
    · exact ⟨m1, h1, by omega, hc2⟩
    · exact ⟨m2, h2, by omega, by omega⟩

/-- The claim C1 with its overflow excluded: when no `matchIdx + after`
exceeds the largest `int`, the indices of the emitted line records are, in
emission order, the ascending enumeration (each index once) of the union of
the windows `[max(0, m - before), min(len(lines) - 1, m + after)]`. -/
theorem printResults_windows (config : Config) (filename : String) (lines : List String)
    (ms : List Int) (hc : config.count = false) (hok : RunOk config lines ms)
    (hno : ∀ m ∈ ms, m + config.after ≤ maxInt) :
    ∃ out, printResults config filename lines ms = some out ∧
      (lineIdxs out).Pairwise (· < ·) ∧
      ∀ i, i ∈ lineIdxs out ↔
        ∃ m ∈ ms, max 0 (m - config.before) ≤ i ∧
          i ≤ min ((lines.length : Int) - 1) (m + config.after) := by
  obtain ⟨idxs, hout, hsorted, hmem⟩ := printResults_canonical config filename lines ms hc hok
  refine ⟨_, hout, ?_, ?_⟩
  · rw [lineIdxs_block]; exact hsorted
  · intro i
    rw [lineIdxs_block, hmem]
    obtain ⟨hb0, hb1, ha0, ha1, hn, -, hr⟩ := hok
    simp only [maxInt] at *
    have key : ∀ m ∈ ms, winStart config m = max 0 (m - config.before) ∧
        winStop config lines m = min ((lines.length : Int) - 1) (m + config.after) := by
      intro m hm
      obtain ⟨hr0, hr1⟩ := hr m hm
      have hws := winStart_cases config m hb0 hb1 hr0 (by omega)
      have hwe := winStop_cases config lines m ha0 ha1 hr0 (by omega)
      have := hno m hm
      constructor <;> omega
    constructor
    · rintro ⟨m, hm, h1, h2⟩
      obtain ⟨k1, k2⟩ := key m hm
      exact ⟨m, hm, by rw [← k1]; exact h1, by rw [← k2]; exact h2⟩
    · rintro ⟨m, hm, h1, h2⟩
      obtain ⟨k1, k2⟩ := key m hm
      exact ⟨m, hm, by rw [k1]; exact h1, by rw [k2]; exact h2⟩

/-- C1 fails on the code when `matchIdx + after` overflows: with
`after = 9223372036854775807` and the single match at index `1` of a two-line
file, the window `[max(0, 1 - 0), min(2 - 1, 1 + after)]` is `[1, 1]`, but
`end` wraps to a negative number and no line is printed at all. -/
theorem printResults_windows_overflow :
    printResults { baseConfig with after := 9223372036854775807 } "a.txt" ["x", "foo"] [1]
      = some [Out.header "a.txt", Out.blank] ∧
    (max 0 ((1 : Int) - 0) ≤ 1 ∧ (1 : Int) ≤ min (2 - 1) (1 + 9223372036854775807)) ∧
    (1 : Int) ∉ lineIdxs [Out.header "a.txt", Out.blank] := by
  refine ⟨by decide, by decide, by decide⟩

/-- C2. Touching-window property: for a strictly increasing in-range match
list and `before, after >= 0`, if two matches `m1 < m2` satisfy
`m2 - before <= (m1 + after) + 1`, then `printResults` returns and no
separator record stands anywhere between the record of line `m1` and the
record of line `m2`. -/
theorem printResults_touching (config : Config) (filename : String) (lines : List String)
    (ms : List Int) (hc : config.count = false) (hok : RunOk config lines ms)
    (m1 m2 : Int) (h1 : m1 ∈ ms) (h2 : m2 ∈ ms) (_hlt : m1 < m2)
    (htouch : m2 - config.before ≤ (m1 + config.after) + 1) :
    ∃ out, printResults config filename lines ms = some out ∧
      ∀ pre mid post t1 t2,
        out = pre ++ Out.line m1 t1 :: mid ++ Out.line m2 t2 :: post → Out.sep ∉ mid := by
  obtain ⟨idxs, hout, hsorted, hmem⟩ := printResults_canonical config filename lines ms hc hok
  refine ⟨_, hout, ?_⟩
  intro pre mid post t1 t2 hdec hsep
  obtain ⟨mid1, mid2, hmid⟩ := List.append_of_mem hsep
  subst hmid
  have hdec' : Out.header filename :: gapRender (lineRec config lines) idxs ++ [Out.blank] =
      (pre ++ Out.line m1 t1 :: mid1) ++ Out.sep :: (mid2 ++ Out.line m2 t2 :: post) := by
    rw [hdec]; simp
  obtain ⟨L', R', hL, hR, hG⟩ := block_sep_split hdec'
  obtain ⟨x, y, hxy, hx, hy, hl, hr⟩ :=
    gapRender_sep_split config lines idxs hsorted L' R' hG
  have hm1x : m1 ≤ x := by
    apply hl
    have : lineIdxs (pre ++ Out.line m1 t1 :: mid1) = lineIdxs L' := by rw [hL]; rfl
    rw [← this, lineIdxs_append]
    simp [lineIdxs]
  have hym2 : y ≤ m2 := by
    apply hr
    have : lineIdxs (mid2 ++ Out.line m2 t2 :: post) = lineIdxs R' := by
      rw [hR, lineIdxs_append]; simp [lineIdxs]
    rw [← this, lineIdxs_append]
    simp [lineIdxs]
  have hcov := touching_covers config lines ms hok m1 m2 h1 h2 htouch x y
    ((hmem x).1 hx) hm1x hxy hym2
  have hin : x + 1 ∈ idxs := (hmem (x + 1)).2 hcov
  have hidx : idxs = lineIdxs L' ++ lineIdxs R' := by
    have := lineIdxs_gapRender config lines idxs
    rw [hG, lineIdxs_append] at this
    simpa [lineIdxs] using this.symm
  rw [hidx, List.mem_append] at hin
  rcases hin with hin | hin
  · have := hl _ hin; omega
  · have := hr _ hin; omega

theorem printResults_touching_witness :
    ∃ out, printResults { baseConfig with before := 1, after := 1 } "a.txt"
        ["foo", "bar", "baz", "foo", "qux"] [0, 3] = some out ∧
      ∀ pre mid post t1 t2,
        out = pre ++ Out.line 0 t1 :: mid ++ Out.line 3 t2 :: post → Out.sep ∉ mid :=
  printResults_touching { baseConfig with before := 1, after := 1 } "a.txt"
    ["foo", "bar", "baz", "foo", "qux"] [0, 3] rfl
    ⟨by decide, by decide, by decide, by decide, by decide, by decide, by decide⟩
    0 3 (by decide) (by decide) (by decide) (by decide)

/-- The windows of two consecutive matches with a gap: the first ends at
`m1 + after`, the second starts at `m2 - before`, and no window holds a line
strictly between the two. -/
theorem gap_windows (config : Config) (lines : List String) (ms : List Int)
    (hok : RunOk config lines ms) (m1 m2 : Int) (pre post : List Int)
    (hms : ms = pre ++ m1 :: m2 :: post)
    (hgap : m2 - config.before > (m1 + config.after) + 1) :
    (∃ m ∈ ms, winStart config m ≤ m1 + config.after ∧
        m1 + config.after ≤ winStop config lines m) ∧
    (∃ m ∈ ms, winStart config m ≤ m2 - config.before ∧
        m2 - config.before ≤ winStop config lines m) ∧
    ∀ i, (∃ m ∈ ms, winStart config m ≤ i ∧ i ≤ winStop config lines m) →
      i ≤ m1 + config.after ∨ m2 - config.before ≤ i := by
  obtain ⟨hb0, hb1, ha0, ha1, hn, hinc, hr⟩ := hok
  simp only [maxInt] at *
  have h1 : m1 ∈ ms := by rw [hms]; simp
  have h2 : m2 ∈ ms := by rw [hms]; simp
  obtain ⟨hr10, hr11⟩ := hr m1 h1
  obtain ⟨hr20, hr21⟩ := hr m2 h2
  have hws1 := winStart_cases config m1 hb0 hb1 hr10 (by omega)
  have hwe1 := winStop_cases config lines m1 ha0 ha1 hr10 (by omega)
  have hws2 := winStart_cases config m2 hb0 hb1 hr20 (by omega)
  have hwe2 := winStop_cases config lines m2 ha0 ha1 hr20 (by omega)
  refine ⟨⟨m1, h1, by omega, by omega⟩, ⟨m2, h2, by omega, by omega⟩, ?_⟩
  rintro i ⟨m, hm, hs, he⟩
  obtain ⟨hr0, hr1⟩ := hr m hm
  have hws := winStart_cases config m hb0 hb1 hr0 (by omega)
  have hwe := winStop_cases config lines m ha0 ha1 hr0 (by omega)
  have hside : m ≤ m1 ∨ m2 ≤ m := by
    rw [hms] at hm hinc
    rw [List.pairwise_append] at hinc
    obtain ⟨-, htail, hcross⟩ := hinc
    rcases List.mem_append.1 hm with hm | hm
    · left; exact le_of_lt (hcross m hm m1 (List.mem_cons_self _ _))
    · rcases List.mem_cons.1 hm with rfl | hm
      · left; exact le_refl _
      · rcases List.mem_cons.1 hm with rfl | hm
        · right; exact le_refl _
        · right
          exact le_of_lt ((List.pairwise_cons.1 (List.pairwise_cons.1 htail).2).1 m hm)
  rcases hside with hside | hside <;> omega

/-- C3. Gap property: for a strictly increasing in-range match list and
`before, after >= 0`, if two consecutive matches `m1 < m2` satisfy
`m2 - before > (m1 + after) + 1`, then `printResults` returns, the last line
of the window of `m1` (line `m1 + after`) is followed by one separator record
and then by the first line of the window of `m2` (line `m2 - before`), and
whatever stands between these two line records is exactly that one
separator. -/
theorem printResults_gap (config : Config) (filename : String) (lines : List String)
    (ms : List Int) (hc : config.count = false) (hok : RunOk config lines ms)
    (m1 m2 : Int) (pre post : List Int) (hms : ms = pre ++ m1 :: m2 :: post)
    (hgap : m2 - config.before > (m1 + config.after) + 1) :
    ∃ out, printResults config filename lines ms = some out ∧
      (∃ p q t1 t2, out = p ++ Out.line (m1 + config.after) t1 :: Out.sep ::
          Out.line (m2 - config.before) t2 :: q) ∧
      ∀ p mid q t1 t2,
        out = p ++ Out.line (m1 + config.after) t1 :: mid ++
          Out.line (m2 - config.before) t2 :: q → mid = [Out.sep] := by
  obtain ⟨idxs, hout, hsorted, hmem⟩ := printResults_canonical config filename lines ms hc hok
  obtain ⟨hx, hy, hbetween⟩ := gap_windows config lines ms hok m1 m2 pre post hms hgap
  have hinfix := gapRender_infix (lineRec config lines) idxs (m1 + config.after)
    (m2 - config.before) hsorted ((hmem _).2 hx) ((hmem _).2 hy) (by omega)
    (fun i hi => hbetween i ((hmem i).1 hi))
  obtain ⟨s, t, hst⟩ := hinfix
  have hex : Out.header filename :: gapRender (lineRec config lines) idxs ++ [Out.blank] =
      (Out.header filename :: s) ++ Out.line (m1 + config.after)
        (lineText config (m1 + config.after) (lines.getD (m1 + config.after).toNat "")) ::
        ([Out.sep] ++ Out.line (m2 - config.before)
          (lineText config (m2 - config.before) (lines.getD (m2 - config.before).toNat "")) ::
          (t ++ [Out.blank])) := by
    rw [← hst]; simp [lineRec]
  refine ⟨_, hout, ⟨Out.header filename :: s, t ++ [Out.blank],
    lineText config (m1 + config.after) (lines.getD (m1 + config.after).toNat ""),
    lineText config (m2 - config.before) (lines.getD (m2 - config.before).toNat ""),
    by rw [hex]; simp⟩, ?_⟩
  intro p mid q t1 t2 hdec
  have hnd : (lineIdxs
      (Out.header filename :: gapRender (lineRec config lines) idxs ++ [Out.blank])).Nodup := by
    rw [lineIdxs_block]
    exact hsorted.imp (fun h => ne_of_lt h)
  have hdec' : Out.header filename :: gapRender (lineRec config lines) idxs ++ [Out.blank] =
      p ++ Out.line (m1 + config.after) t1 ::
        (mid ++ Out.line (m2 - config.before) t2 :: q) := by
    rw [hdec]; simp
  obtain ⟨-, htail⟩ := line_split_unique hnd hex hdec'
  have hnd2 : (lineIdxs ([Out.sep] ++ Out.line (m2 - config.before)
      (lineText config (m2 - config.before) (lines.getD (m2 - config.before).toNat "")) ::
      (t ++ [Out.blank]))).Nodup := by
    rw [hex, lineIdxs_append] at hnd
    have h2 := (List.nodup_append.1 hnd).2.1
    rw [lineIdxs, List.nodup_cons] at h2
    exact h2.2
  exact (line_split_unique hnd2 rfl htail).1.symm

theorem printResults_gap_witness :
    ∃ out, printResults { baseConfig with before := 1, after := 1 } "a.txt"
        ["foo", "a", "b", "c", "d", "foo", "e"] ([] ++ 0 :: 5 :: []) = some out ∧
      (∃ p q t1 t2, out = p ++ Out.line (0 + 1) t1 :: Out.sep :: Out.line (5 - 1) t2 :: q) ∧
      ∀ p mid q t1 t2,
        out = p ++ Out.line (0 + 1) t1 :: mid ++ Out.line (5 - 1) t2 :: q → mid = [Out.sep] :=
  printResults_gap { baseConfig with before := 1, after := 1 } "a.txt"
    ["foo", "a", "b", "c", "d", "foo", "e"] ([] ++ 0 :: 5 :: []) rfl
    ⟨by decide, by decide, by decide, by decide, by decide, by decide, by decide⟩
    0 5 [] [] rfl (by decide)


/-! ## findMatches -/

theorem matchLoop_acc (re : String → Bool) (invert : Bool) (lines : List String) (i : Int)
    (acc : List Int) :
    matchLoop re invert lines i acc = acc ++ matchLoop re invert lines i [] := by
  induction lines generalizing i acc with
  | nil => simp [matchLoop]
  | cons line rest ih =>
    simp only [matchLoop]
    generalize (if invert = true then !re line else re line) = c
    cases c with
    | false => simpa using ih (i + 1) acc
    | true =>
      simp only [if_true, List.nil_append]
      rw [ih (i + 1) (acc ++ [i]), ih (i + 1) [i]]
      simp

theorem matchLoop_cons (re : String → Bool) (invert : Bool) (line : String)
    (rest : List String) (i : Int) :
    matchLoop re invert (line :: rest) i [] =
      (if selects re invert line = true then [i] else []) ++
        matchLoop re invert rest (i + 1) [] := by
  simp only [matchLoop]
  rw [matchLoop_acc]
  rfl

theorem matchLoop_mem (re : String → Bool) (invert : Bool) (lines : List String) (i x : Int) :
    x ∈ matchLoop re invert lines i [] ↔
      ∃ j : Nat, ∃ h : j < lines.length, x = i + j ∧ selects re invert (lines[j]) = true := by
  induction lines generalizing i with
  | nil => simp [matchLoop]
  | cons line rest ih =>
    rw [matchLoop_cons, List.mem_append, ih]
    constructor
    · rintro (h | ⟨j, hj, hx, hsel⟩)
      · by_cases hs : selects re invert line = true
        · rw [if_pos hs] at h
          simp only [List.mem_singleton] at h
          exact ⟨0, by simp, by simp [h], by simpa using hs⟩
        · rw [if_neg hs] at h; simp at h
      · exact ⟨j + 1, by simp; omega, by push_cast; omega, by simpa using hsel⟩
    · rintro ⟨j, hj, hx, hsel⟩
      cases j with
      | zero =>
        left
        have hs : selects re invert line = true := by simpa using hsel
        rw [if_pos hs]; simp [hx]
      | succ j =>
        right
        exact ⟨j, by simpa using hj, by push_cast at hx; omega, by simpa using hsel⟩

theorem matchLoop_increasing (re : String → Bool) (invert : Bool) (lines : List String)
    (i : Int) : (matchLoop re invert lines i []).Pairwise (· < ·) := by
  induction lines generalizing i with
  | nil => simp [matchLoop]
  | cons line rest ih =>
    rw [matchLoop_cons, List.pairwise_append]
    refine ⟨by split <;> simp, ih (i + 1), ?_⟩
    intro a ha b hb
    rw [matchLoop_mem] at hb
    obtain ⟨j, -, hb, -⟩ := hb
    split at ha
    · simp only [List.mem_singleton] at ha; omega
    · simp at ha

theorem findMatches_ok {lib : RegexpLib} {config : Config} {lines : List String}
    {ms : List Int} (h : findMatches lib config lines = Except.ok ms) :
    ∃ re, compilePattern lib config = some re ∧ ms = matchLoop re config.invert lines 0 [] := by
  unfold findMatches at h
  cases hre : compilePattern lib config with
  | none => rw [hre] at h; simp at h
  | some re =>
    rw [hre] at h
    simp only [Except.ok.injEq] at h
    exact ⟨re, rfl, h.symm⟩

theorem findMatches_of_compile {lib : RegexpLib} {config : Config} {re : String → Bool}
    (h : compilePattern lib config = some re) (lines : List String) :
    findMatches lib config lines = Except.ok (matchLoop re config.invert lines 0 []) := by
  unfold findMatches; rw [h]

/-- C9. The index list returned by `findMatches` on success is strictly
increasing (ascending, no duplicates) and every index lies in
`[0, len(lines))`. -/
theorem findMatches_increasing (lib : RegexpLib) (config : Config) (lines : List String)
    (ms : List Int) (h : findMatches lib config lines = Except.ok ms) :
    ms.Pairwise (· < ·) ∧ ∀ m ∈ ms, 0 ≤ m ∧ m < (lines.length : Int) := by
  obtain ⟨re, -, rfl⟩ := findMatches_ok h
  refine ⟨matchLoop_increasing re config.invert lines 0, ?_⟩
  intro m hm
  rw [matchLoop_mem] at hm
  obtain ⟨j, hj, hx, -⟩ := hm
  omega

theorem findMatches_increasing_witness :
    [(0 : Int), 2].Pairwise (· < ·) ∧
      ∀ m ∈ [(0 : Int), 2], 0 ≤ m ∧ m < ((["foo", "bar", "xfoo"] : List String).length : Int) :=
  findMatches_increasing litLib { baseConfig with pattern := "foo" } ["foo", "bar", "xfoo"]
    [0, 2] rfl

/-- C8. Invert is the exact complement: when the pattern compiles, the
indices returned with `invert` set are exactly the indices of
`[0, len(lines))` that are not returned with `invert` unset; the two results
are disjoint and together cover every index. -/
theorem findMatches_invert (lib : RegexpLib) (config : Config) (lines : List String)
    (b : List Int) (hb : findMatches lib { config with invert := false } lines = Except.ok b) :
    ∃ a, findMatches lib { config with invert := true } lines = Except.ok a ∧
      (∀ i : Int, i ∈ a ↔ (0 ≤ i ∧ i < (lines.length : Int) ∧ i ∉ b)) ∧
      (∀ i : Int, ¬ (i ∈ a ∧ i ∈ b)) ∧
      (∀ i : Int, 0 ≤ i → i < (lines.length : Int) → i ∈ a ∨ i ∈ b) := by
  obtain ⟨re, hre, rfl⟩ := findMatches_ok hb
  have hre' : compilePattern lib { config with invert := true } = some re := hre
  have hiff : ∀ i : Int, i ∈ matchLoop re true lines 0 [] ↔
      (0 ≤ i ∧ i < (lines.length : Int) ∧ i ∉ matchLoop re false lines 0 []) := by
    intro i
    simp only [matchLoop_mem, selects]
    constructor
    · rintro ⟨j, hj, hx, hsel⟩
      refine ⟨by omega, by omega, ?_⟩
      rintro ⟨j', hj', hx', hsel'⟩
      have : j = j' := by omega
      subst this
      simp at hsel hsel'
      rw [hsel'] at hsel
      exact absurd hsel (by simp)
    · rintro ⟨h0, h1, hnot⟩
      have hj : i.toNat < lines.length := by omega
      refine ⟨i.toNat, hj, by omega, ?_⟩
      by_cases hsel : re (lines[i.toNat]) = true
      · exact absurd ⟨i.toNat, hj, by omega, by simpa using hsel⟩ hnot
      · simpa using hsel
  refine ⟨_, findMatches_of_compile hre' lines, hiff, ?_, ?_⟩
  · rintro i ⟨ha, hb⟩
    exact ((hiff i).1 ha).2.2 hb
  · intro i h0 h1
    by_cases hb : i ∈ matchLoop re false lines 0 []
    · exact Or.inr hb
    · exact Or.inl ((hiff i).2 ⟨h0, h1, hb⟩)

theorem findMatches_invert_witness :
    findMatches litLib { baseConfig with pattern := "foo", invert := true } ["foo", "bar"] =
      Except.ok [1] ∧
    ∃ a, findMatches litLib { baseConfig with pattern := "foo", invert := true } ["foo", "bar"] =
        Except.ok a ∧
      (∀ i : Int, i ∈ a ↔
        (0 ≤ i ∧ i < ((["foo", "bar"] : List String).length : Int) ∧ i ∉ [(0 : Int)])) ∧
      (∀ i : Int, ¬ (i ∈ a ∧ i ∈ [(0 : Int)])) ∧
      (∀ i : Int, 0 ≤ i → i < ((["foo", "bar"] : List String).length : Int) →
        i ∈ a ∨ i ∈ [(0 : Int)]) :=
  ⟨rfl, findMatches_invert litLib { baseConfig with pattern := "foo" } ["foo", "bar"] [0] rfl⟩

/-! ### The literal-only engine satisfies the contract of `QuoteMeta` -/

theorem special_backslash : special '\\' = true := by decide

theorem unquote_quote (cs : List Char) : unquoteChars (quoteChars cs) = some cs := by
  induction cs with
  | nil => rfl
  | cons c cs ih =>
    by_cases hs : special c = true
    · simp [quoteChars, unquoteChars, hs, ih]
    · have hc : c ≠ '\\' := by
        intro h; rw [h] at hs; exact hs special_backslash
      have hq : quoteChars (c :: cs) = c :: quoteChars cs := by simp [quoteChars, hs]
      rw [hq]
      generalize quoteChars cs = q at ih
      cases q with
      | nil =>
        simp only [unquoteChars, Option.some.injEq] at ih
        simp [unquoteChars, hs, hc, ih]
      | cons d r => simp [unquoteChars, hs, hc, ih]

theorem litLib_literalLaw : LiteralLaw litLib := by
  intro s
  refine ⟨fun l => decide (s.data <:+: l.data), ?_, by simp⟩
  simp [litLib, unquote_quote]

/-! ### Fixed-string mode -/

/-- What `findMatches` selects (not inverted) when `fixed` is set: the lines
that hold, as a literal substring, the text that was quoted. -/
theorem findMatches_quoted (lib : RegexpLib) (hlaw : LiteralLaw lib) (config : Config)
    (lines : List String) (hf : config.fixed = true) (hv : config.invert = false) :
    ∃ ms, findMatches lib config lines = Except.ok ms ∧
      ∀ (j : Nat) (h : j < lines.length),
        (j : Int) ∈ ms ↔
          (if config.ignore then "(?i)" ++ config.pattern else config.pattern).data <:+:
            (lines[j]).data := by
  obtain ⟨re, hre, hlit⟩ :=
    hlaw (if config.ignore then "(?i)" ++ config.pattern else config.pattern)
  have hc : compilePattern lib config = some re := by
    simp only [compilePattern, hf, if_true]; exact hre
  refine ⟨_, findMatches_of_compile hc lines, ?_⟩
  intro j hj
  rw [matchLoop_mem, hv]
  simp only [selects, Bool.false_eq_true, if_false]
  constructor
  · rintro ⟨j', hj', hx, hsel⟩
    have : j = j' := by omega
    subst this
    exact (hlit _).1 hsel
  · intro h
    exact ⟨j, hj, by omega, (hlit _).2 h⟩

/-- C4 fails on the code: with `ignore` and `fixed` both set the prefix
`(?i)` is quoted together with the pattern, so `findMatches` selects the
lines that hold the literal text `(?i)` followed by the pattern, in the very
letter case given.  For the pattern `foo` the line `FOO bar`, which holds
`foo` up to letter case, is not selected, and the line `x(?i)foo` is. -/
theorem findMatches_ignoreCase_fixed (lib : RegexpLib) (hlaw : LiteralLaw lib) :
    findMatches lib { baseConfig with ignore := true, fixed := true, pattern := "foo" }
      ["FOO bar", "x(?i)foo"] = Except.ok [1] ∧
    ("foo".data.map Char.toLower <:+: "FOO bar".data.map Char.toLower) ∧
    (∀ (config : Config) (lines : List String),
      config.fixed = true → config.ignore = true → config.invert = false →
      ∃ ms, findMatches lib config lines = Except.ok ms ∧
        ∀ (j : Nat) (h : j < lines.length),
          (j : Int) ∈ ms ↔ ("(?i)" ++ config.pattern).data <:+: (lines[j]).data) := by
  refine ⟨?_, by decide, ?_⟩
  · obtain ⟨re, hre, hlit⟩ := hlaw "(?i)foo"
    have hc : compilePattern lib
        { baseConfig with ignore := true, fixed := true, pattern := "foo" } = some re := hre
    rw [findMatches_of_compile hc]
    have h1 : re "FOO bar" = false := by
      cases h : re "FOO bar" with
      | false => rfl
      | true => exact absurd ((hlit _).1 h) (by decide)
    have h2 : re "x(?i)foo" = true := (hlit _).2 (by decide)
    simp [matchLoop, baseConfig, h1, h2]
  · intro config lines hf hi hv
    obtain ⟨ms, hms, hsel⟩ := findMatches_quoted lib hlaw config lines hf hv
    refine ⟨ms, hms, ?_⟩
    intro j hj
    have := hsel j hj
    simpa [hi] using this

theorem findMatches_ignoreCase_fixed_witness :
    findMatches litLib { baseConfig with ignore := true, fixed := true, pattern := "foo" }
      ["FOO bar", "x(?i)foo"] = Except.ok [1] :=
  (findMatches_ignoreCase_fixed litLib litLib_literalLaw).1

/-! ## Zero matches, context override, line numbers -/

/-- C12. Zero matches: for a non-empty line list and an empty match list in
non-count mode, `printResults` emits exactly the header line `<filename>:`
followed by one blank line; no line record and no separator. -/
theorem printResults_noMatches (config : Config) (filename : String) (lines : List String)
    (hc : config.count = false) (_hne : lines ≠ []) :
    printResults config filename lines [] = some [Out.header filename, Out.blank] ∧
    [Out.header filename, Out.blank].map Out.render = [filename ++ ":", ""] := by
  constructor
  · simp [printResults, hc]
  · rfl

theorem printResults_noMatches_witness :
    printResults baseConfig "a.txt" ["foo", "bar"] [] =
      some [Out.header "a.txt", Out.blank] ∧
    [Out.header "a.txt", Out.blank].map Out.render = ["a.txt" ++ ":", ""] :=
  printResults_noMatches baseConfig "a.txt" ["foo", "bar"] rfl (by decide)

/-- C13. Context override: whatever `-A` and `-B` are, `parseFlags` yields
`before = after = C` when `C > 0`, and `after = A`, `before = B` unchanged
when `C` is not positive. -/
theorem parseFlags_context (fl : Flags) (args : List String) :
    (0 < fl.C → (parseFlags fl args).before = fl.C ∧ (parseFlags fl args).after = fl.C) ∧
    (¬ 0 < fl.C → (parseFlags fl args).after = fl.A ∧ (parseFlags fl args).before = fl.B) := by
  unfold parseFlags
  constructor
  · intro h
    simp only [gt_iff_lt, h, if_true]
    split <;> exact ⟨rfl, rfl⟩
  · intro h
    simp only [gt_iff_lt, h, if_false]
    split <;> exact ⟨rfl, rfl⟩

theorem parseFlags_context_witness :
    ((parseFlags { plainFlags with A := 1, B := 7, C := 3 } ["foo", "a.txt"]).before = 3 ∧
     (parseFlags { plainFlags with A := 1, B := 7, C := 3 } ["foo", "a.txt"]).after = 3) ∧
    ((parseFlags { plainFlags with A := 1, B := 7, C := 0 } ["foo", "a.txt"]).after = 1 ∧
     (parseFlags { plainFlags with A := 1, B := 7, C := 0 } ["foo", "a.txt"]).before = 7) :=
  ⟨(parseFlags_context { plainFlags with A := 1, B := 7, C := 3 } ["foo", "a.txt"]).1
      (by decide),
   (parseFlags_context { plainFlags with A := 1, B := 7, C := 0 } ["foo", "a.txt"]).2
      (by decide)⟩

theorem lineText_eq (config : Config) (idx : Int) (l : String) :
    lineText config idx l =
      if config.lineNum then toString (idx + 1) ++ ":" ++ l else l := by
  unfold lineText
  cases h : config.lineNum with
  | false => simp
  | true =>
    have hne : toString (idx + 1) ++ ":" ≠ "" := by
      intro h
      have := congrArg String.length h
      simp at this
      exact absurd this.2 (by decide)
    simp [hne]

theorem printMatch_textOk (config : Config) (lines : List String) (st : PState) (m : Int)
    (h : TextOk config lines st) :
    ∃ st', printMatch config lines st m = some st' ∧ TextOk config lines st' := by
  obtain ⟨h1, h2⟩ := h
  refine ⟨_, printMatch_eq config lines st m h1, ?_, ?_⟩
  all_goals simp only
  · have := printStart_nonneg config st m h1
    split <;> omega
  · intro r hr
    simp only [List.mem_append, List.mem_map] at hr
    rcases hr with (hr | hr) | ⟨i, hi, rfl⟩
    · exact h2 r hr
    · left
      unfold sepOf at hr; split at hr
      · simpa using hr
      · simp at hr
    · right
      rw [intRun_mem] at hi
      have := printStart_nonneg config st m h1
      have := winStop_lt config lines m
      unfold printCount at hi
      exact ⟨i, by omega, by omega, rfl⟩

theorem printLoop_textOk (config : Config) (lines : List String) (ms : List Int) :
    ∃ st, printLoop config lines ms { out := [], last := -1 } = some st ∧
      TextOk config lines st := by
  apply printLoop_invariant config lines (TextOk config lines) (printMatch_textOk config lines)
  exact ⟨by simp, by simp⟩

/-! The control flow does not look at `lineNum`. -/

theorem printLines_shape (c1 c2 : Config) (lines : List String) (k : Nat) (idx : Int)
    (st1 st2 : PState) (h : st1.shape = st2.shape) :
    (printLines c1 lines k idx st1).map PState.shape =
      (printLines c2 lines k idx st2).map PState.shape := by
  induction k generalizing idx st1 st2 with
  | zero => simp [printLines, h]
  | succ k ih =>
    simp only [printLines]
    cases lineAt lines idx with
    | none => rfl
    | some l =>
      simp only
      apply ih
      simp only [PState.shape, PState.mk.injEq] at h ⊢
      simp [h.1, Out.shape]

theorem printMatch_shape (c1 c2 : Config) (lines : List String) (st1 st2 : PState) (m : Int)
    (hb : c1.before = c2.before) (ha : c1.after = c2.after) (h : st1.shape = st2.shape) :
    (printMatch c1 lines st1 m).map PState.shape =
      (printMatch c2 lines st2 m).map PState.shape := by
  have hs : winStart c1 m = winStart c2 m := by simp [winStart, hb]
  have he : winStop c1 lines m = winStop c2 lines m := by simp [winStop, ha]
  have hl : st1.last = st2.last := by
    simp only [PState.shape, PState.mk.injEq] at h; exact h.2
  have ho : st1.out.map Out.shape = st2.out.map Out.shape := by
    simp only [PState.shape, PState.mk.injEq] at h; exact h.1
  unfold printMatch
  simp only [hs, he, hl]
  apply printLines_shape
  simp only [PState.shape, PState.mk.injEq, and_true]
  split <;> simp [ho, Out.shape]

theorem printLoop_shape (c1 c2 : Config) (lines : List String) (ms : List Int)
    (st1 st2 : PState)
    (hb : c1.before = c2.before) (ha : c1.after = c2.after) (h : st1.shape = st2.shape) :
    (printLoop c1 lines ms st1).map PState.shape =
      (printLoop c2 lines ms st2).map PState.shape := by
  induction ms generalizing st1 st2 with
  | nil => simp [printLoop, h]
  | cons m ms ih =>
    have hm := printMatch_shape c1 c2 lines st1 st2 m hb ha h
    simp only [printLoop]
    cases h1 : printMatch c1 lines st1 m with
    | none =>
      rw [h1] at hm
      cases h2 : printMatch c2 lines st2 m with
      | none => rfl
      | some s2 => rw [h2] at hm; simp at hm
    | some s1 =>
      rw [h1] at hm
      cases h2 : printMatch c2 lines st2 m with
      | none => rw [h2] at hm; simp at hm
      | some s2 =>
        rw [h2] at hm
        simp only [Option.map_some', Option.some.injEq] at hm
        exact ih s1 s2 hm

theorem printResults_shape (c1 c2 : Config) (filename : String) (lines : List String)
    (ms : List Int) (hc : c1.count = c2.count)
    (hb : c1.before = c2.before) (ha : c1.after = c2.after) :
    (printResults c1 filename lines ms).map (List.map Out.shape) =
      (printResults c2 filename lines ms).map (List.map Out.shape) := by
  have h := printLoop_shape c1 c2 lines ms { out := [], last := -1 }
    { out := [], last := -1 } hb ha rfl
  unfold printResults
  rw [hc]
  generalize printLoop c1 lines ms { out := [], last := -1 } = o1 at h ⊢
  generalize printLoop c2 lines ms { out := [], last := -1 } = o2 at h ⊢
  cases c2.count with
  | true => rfl
  | false =>
    by_cases hm : ms.length = 0
    · simp [hm]
    · simp only [Bool.false_eq_true, if_false, hm]
      cases o1 with
      | none =>
        cases o2 with
        | none => rfl
        | some s2 => simp at h
      | some s1 =>
        cases o2 with
        | none => simp at h
        | some s2 =>
          simp only [Option.map_some', Option.some.injEq, PState.shape, PState.mk.injEq] at h
          simp [h.1, Out.shape]

/-- C14. Line-number prefix: every line record that `printResults` emits
for index `idx` carries the text `<idx+1>:` followed by `lines[idx]` when
`lineNum` is set, and exactly `lines[idx]` when it is unset; and the records
emitted (their kinds, their line indices and their order) are the same
whether `lineNum` is set or not. -/
theorem printResults_lineNum (config : Config) (filename : String) (lines : List String)
    (ms : List Int) :
    (∃ out, printResults config filename lines ms = some out ∧
      ∀ idx text, Out.line idx text ∈ out →
        ∃ l, lineAt lines idx = some l ∧
          text = if config.lineNum then toString (idx + 1) ++ ":" ++ l else l) ∧
    (printResults { config with lineNum := true } filename lines ms).map (List.map Out.shape) =
      (printResults { config with lineNum := false } filename lines ms).map
        (List.map Out.shape) ∧
    printResults { baseConfig with lineNum := true } "a.txt" ["foo", "bar"] [1] =
      some [Out.header "a.txt", Out.line 1 "2:bar", Out.blank] ∧
    printResults { baseConfig with lineNum := false } "a.txt" ["foo", "bar"] [1] =
      some [Out.header "a.txt", Out.line 1 "bar", Out.blank] := by
  refine ⟨?_, ?_, by decide, by decide⟩
  · by_cases hc : config.count = true
    · exact ⟨[Out.count filename ms.length], by simp [printResults, hc], by simp⟩
    · by_cases hm : ms.length = 0
      · exact ⟨[Out.header filename] ++ [Out.blank], by simp [printResults, hc, hm], by simp⟩
      · obtain ⟨st, hst, -, htext⟩ := printLoop_textOk config lines ms
        refine ⟨[Out.header filename] ++ st.out ++ [Out.blank],
          by simp [printResults, hc, hm, hst], ?_⟩
        intro idx text hmem
        simp only [List.mem_append, List.mem_singleton] at hmem
        rcases hmem with (hmem | hmem) | hmem
        · simp at hmem
        · rcases htext _ hmem with h | ⟨i, h0, h1, h⟩
          · simp at h
          · simp only [lineRec, Out.line.injEq] at h
            obtain ⟨rfl, rfl⟩ := h
            exact ⟨_, lineAt_of_inRange lines h0 h1, lineText_eq _ _ _⟩
        · simp at hmem
  · exact printResults_shape _ _ filename lines ms rfl rfl rfl

/-! ## Separators mark exactly the gaps -/

theorem block_split {filename : String} {G p q : List Out} {r : Out} (hr : r.isBody = true)
    (h : Out.header filename :: G ++ [Out.blank] = p ++ r :: q) :
    ∃ p' q', p = Out.header filename :: p' ∧ q = q' ++ [Out.blank] ∧ G = p' ++ r :: q' := by
  cases p with
  | nil =>
    simp only [List.nil_append, List.cons_append, List.cons.injEq] at h
    rw [← h.1] at hr; simp [Out.isBody] at hr
  | cons a p =>
    simp only [List.cons_append, List.cons.injEq] at h
    obtain ⟨ha, h⟩ := h
    rcases List.eq_nil_or_concat q with hq | ⟨q', b, hq⟩
    · subst hq
      have := (List.append_inj' h rfl).2
      simp only [List.cons.injEq, and_true] at this
      rw [← this] at hr; simp [Out.isBody] at hr
    · subst hq
      have h' : G ++ [Out.blank] = (p ++ r :: q') ++ [b] := by simpa using h
      obtain ⟨h1, h2⟩ := List.append_inj' h' rfl
      simp only [List.cons.injEq, and_true] at h2
      exact ⟨p, q', by rw [ha], by rw [← h2]; simp, h1⟩

/-- In the canonical rendering a separator stands between two line records
whose indices are not consecutive. -/
theorem gapRender_sep_context (config : Config) (lines : List String) (idxs : List Int)
    (p q : List Out) (h : gapRender (lineRec config lines) idxs = p ++ Out.sep :: q) :
    ∃ p' x y q', p = p' ++ [lineRec config lines x] ∧ q = lineRec config lines y :: q' ∧
      x + 1 < y := by
  induction idxs generalizing p with
  | nil => simp [gapRender] at h
  | cons a l ih =>
    cases l with
    | nil =>
      cases p with
      | nil => simp [gapRender, lineRec] at h
      | cons r p => simp [gapRender] at h
    | cons b l =>
      obtain ⟨rest, hrest⟩ := gapRender_cons_head (lineRec config lines) b l
      cases p with
      | nil => simp [gapRender, lineRec] at h
      | cons r p =>
        simp only [gapRender, List.cons_append, List.cons.injEq] at h
        obtain ⟨hr, h⟩ := h
        have hrec : ∀ p0, gapRender (lineRec config lines) (b :: l) = p0 ++ Out.sep :: q →
            ∀ pre, r :: p = pre ++ p0 →
            ∃ p' x y q', r :: p = p' ++ [lineRec config lines x] ∧
              q = lineRec config lines y :: q' ∧ x + 1 < y := by
          intro p0 hp0 pre hpre
          obtain ⟨p', x, y, q', h1, h2, h3⟩ := ih p0 hp0
          exact ⟨pre ++ p', x, y, q', by rw [hpre, h1]; simp, h2, h3⟩
        by_cases hgap : a + 1 < b
        · rw [if_pos hgap] at h
          cases p with
          | nil =>
            simp only [List.nil_append, List.cons.injEq, true_and] at h
            exact ⟨[], a, b, rest, by simp [hr], by rw [← h, hrest], hgap⟩
          | cons s p =>
            simp only [List.cons_append, List.cons.injEq] at h
            exact hrec p h.2 [r, s] (by simp)
        · rw [if_neg hgap] at h
          exact hrec p h [r] (by simp)

/-- In the canonical rendering of an ascending index list two line records
with nothing between them have consecutive indices. -/
theorem gapRender_adjacent (config : Config) (lines : List String) (idxs : List Int)
    (hs : idxs.Pairwise (· < ·)) (p q : List Out) (i j : Int) (ti tj : String)
    (h : gapRender (lineRec config lines) idxs = p ++ Out.line i ti :: Out.line j tj :: q) :
    j = i + 1 := by
  induction idxs generalizing p with
  | nil => simp [gapRender] at h
  | cons a l ih =>
    cases l with
    | nil =>
      cases p with
      | nil => simp [gapRender] at h
      | cons r p => simp [gapRender] at h
    | cons b l =>
      rw [List.pairwise_cons] at hs
      have hab : a < b := hs.1 b (List.mem_cons_self _ _)
      obtain ⟨rest, hrest⟩ := gapRender_cons_head (lineRec config lines) b l
      cases p with
      | nil =>
        simp only [gapRender, List.nil_append, List.cons.injEq] at h
        obtain ⟨ha, h⟩ := h
        by_cases hgap : a + 1 < b
        · rw [if_pos hgap] at h; simp at h
        · rw [if_neg hgap, hrest] at h
          simp only [lineRec, List.cons.injEq, Out.line.injEq] at h ha
          omega
      | cons r p =>
        simp only [gapRender, List.cons_append, List.cons.injEq] at h
        obtain ⟨-, h⟩ := h
        by_cases hgap : a + 1 < b
        · rw [if_pos hgap] at h
          cases p with
          | nil => simp at h
          | cons s p =>
            simp only [List.cons_append, List.cons.injEq] at h
            exact ih hs.2 p h.2
        · rw [if_neg hgap] at h
          exact ih hs.2 p h

/-- In the canonical rendering of an ascending index list, what stands
between two successive line records is one separator when their indices are
not consecutive and nothing when they are. -/
theorem gapRender_between (config : Config) (lines : List String) (idxs : List Int)
    (hs : idxs.Pairwise (· < ·)) (p mid q : List Out) (i j : Int) (ti tj : String)
    (h : gapRender (lineRec config lines) idxs =
      p ++ Out.line i ti :: (mid ++ Out.line j tj :: q))
    (hmid : lineIdxs mid = []) :
    (i + 1 < j ∧ mid = [Out.sep]) ∨ (j = i + 1 ∧ mid = []) := by
  induction idxs generalizing p with
  | nil => simp [gapRender] at h
  | cons a l ih =>
    cases l with
    | nil =>
      cases p with
      | nil => simp [gapRender] at h
      | cons r p => simp [gapRender] at h
    | cons b l =>
      rw [List.pairwise_cons] at hs
      have hab : a < b := hs.1 b (List.mem_cons_self _ _)
      obtain ⟨rest, hrest⟩ := gapRender_cons_head (lineRec config lines) b l
      have hhead : ∀ mid', lineRec config lines b :: rest = mid' ++ Out.line j tj :: q →
          lineIdxs mid' = [] → b = j ∧ mid' = [] := by
        intro mid' hm hl
        cases mid' with
        | nil =>
          simp only [List.nil_append, List.cons.injEq, lineRec, Out.line.injEq] at hm
          exact ⟨hm.1.1, rfl⟩
        | cons m1 mid' =>
          simp only [List.cons_append, List.cons.injEq] at hm
          rw [← hm.1] at hl
          simp [lineRec, lineIdxs] at hl
      cases p with
      | nil =>
        simp only [gapRender, List.nil_append, List.cons.injEq] at h
        obtain ⟨ha, h⟩ := h
        simp only [lineRec, Out.line.injEq] at ha
        by_cases hgap : a + 1 < b
        · rw [if_pos hgap, hrest] at h
          cases mid with
          | nil => simp at h
          | cons s mid =>
            simp only [List.cons_append, List.cons.injEq] at h
            have hl : lineIdxs mid = [] := by
              rw [← h.1] at hmid; simpa [lineIdxs] using hmid
            obtain ⟨hb, hm⟩ := hhead mid h.2 hl
            left
            exact ⟨by omega, by rw [← h.1, hm]⟩
        · rw [if_neg hgap, hrest] at h
          obtain ⟨hb, hm⟩ := hhead mid h hmid
          right
          exact ⟨by omega, hm⟩
      | cons r p =>
        simp only [gapRender, List.cons_append, List.cons.injEq] at h
        obtain ⟨-, h⟩ := h
        by_cases hgap : a + 1 < b
        · rw [if_pos hgap] at h
          cases p with
          | nil => simp at h
          | cons s p =>
            simp only [List.cons_append, List.cons.injEq] at h
            exact ih hs.2 p h.2
        · rw [if_neg hgap] at h
          exact ih hs.2 p h

theorem block_between {filename : String} {G p mid q : List Out} {i j : Int} {ti tj : String}
    (h : Out.header filename :: G ++ [Out.blank] =
      p ++ Out.line i ti :: mid ++ Out.line j tj :: q) :
    ∃ p' q', G = p' ++ Out.line i ti :: (mid ++ Out.line j tj :: q') := by
  have h1 : Out.header filename :: G ++ [Out.blank] =
      (p ++ Out.line i ti :: mid) ++ Out.line j tj :: q := h
  obtain ⟨p0, q', hp0, -, hG⟩ := block_split (by rfl) h1
  cases p with
  | nil => simp at hp0
  | cons r p =>
    simp only [List.cons_append, List.cons.injEq] at hp0
    exact ⟨p, q', by rw [hG, ← hp0.2]; simp⟩

/-- C15. Separators mark exactly the gaps: for a strictly increasing in-range
match list and `before, after >= 0`, in the output of `printResults` the
line indices are emitted in ascending order, and between two successively
emitted line records (no line record between them) stands either exactly
one separator or nothing: one separator if and only if their indices are
not consecutive (differ by at least 2), nothing if and only if they are
consecutive.  Moreover every separator stands directly between two line
records, so it is never the first record after the header, never the last
record before the blank line, and never next to another separator. -/
theorem printResults_separators (config : Config) (filename : String) (lines : List String)
    (ms : List Int) (hc : config.count = false) (hok : RunOk config lines ms) :
    ∃ out, printResults config filename lines ms = some out ∧
      (lineIdxs out).Pairwise (· < ·) ∧
      (∀ p mid q i j ti tj, out = p ++ Out.line i ti :: mid ++ Out.line j tj :: q →
        lineIdxs mid = [] →
        i < j ∧ (mid = [Out.sep] ∨ mid = []) ∧
          (mid = [Out.sep] ↔ i + 1 < j) ∧ (mid = [] ↔ j = i + 1)) ∧
      (∀ p q i j ti tj, out = p ++ Out.line i ti :: Out.line j tj :: q → j = i + 1) ∧
      (∀ p q i j ti tj, out = p ++ Out.line i ti :: Out.sep :: Out.line j tj :: q →
        i + 1 < j) ∧
      (∀ p q, out = p ++ Out.sep :: q →
        (∃ p' i ti, p = p' ++ [Out.line i ti]) ∧ (∃ j tj q', q = Out.line j tj :: q')) := by
  obtain ⟨idxs, hout, hsorted, -⟩ := printResults_canonical config filename lines ms hc hok
  have hsepctx : ∀ p q,
      Out.header filename :: gapRender (lineRec config lines) idxs ++ [Out.blank] =
        p ++ Out.sep :: q →
      ∃ p' x y q', p = p' ++ [lineRec config lines x] ∧ q = lineRec config lines y :: q' ∧
        x + 1 < y := by
    intro p q h
    obtain ⟨p1, q1, hp, hq, hG⟩ := block_split (by rfl) h
    obtain ⟨p', x, y, q', h1, h2, h3⟩ := gapRender_sep_context config lines idxs p1 q1 hG
    exact ⟨Out.header filename :: p', x, y, q' ++ [Out.blank], by rw [hp, h1]; simp,
      by rw [hq, h2]; simp, h3⟩
  refine ⟨_, hout, by rw [lineIdxs_block]; exact hsorted, ?_, ?_, ?_, ?_⟩
  · intro p mid q i j ti tj h hmid
    obtain ⟨p', q', hG⟩ := block_between h
    rcases gapRender_between config lines idxs hsorted p' mid q' i j ti tj hG hmid with
      ⟨hgap, hm⟩ | ⟨hcons, hm⟩
    · subst hm
      exact ⟨by omega, Or.inl rfl, ⟨fun _ => hgap, fun _ => rfl⟩,
        ⟨fun h0 => by simp at h0, fun h0 => by omega⟩⟩
    · subst hm
      exact ⟨by omega, Or.inr rfl, ⟨fun h0 => by simp at h0, fun h0 => by omega⟩,
        ⟨fun _ => hcons, fun _ => rfl⟩⟩
  · intro p q i j ti tj h
    obtain ⟨p1, q1, hp, hq, hG⟩ := block_split (by rfl) h
    cases q1 with
    | nil => simp at hq
    | cons r q1 =>
      simp only [List.cons_append, List.cons.injEq] at hq
      rw [← hq.1] at hG
      exact gapRender_adjacent config lines idxs hsorted p1 q1 i j ti tj hG
  · intro p q i j ti tj h
    have h' : Out.header filename :: gapRender (lineRec config lines) idxs ++ [Out.blank] =
        (p ++ [Out.line i ti]) ++ Out.sep :: (Out.line j tj :: q) := by rw [h]; simp
    obtain ⟨p', x, y, q', h1, h2, h3⟩ := hsepctx _ _ h'
    have hx := (List.append_inj' h1 rfl).2
    simp only [lineRec, List.cons.injEq, Out.line.injEq, and_true] at hx h2
    omega
  · intro p q h
    obtain ⟨p', x, y, q', h1, h2, -⟩ := hsepctx p q h
    exact ⟨⟨p', x, _, h1⟩, ⟨y, _, q', h2⟩⟩

theorem printResults_separators_witness :
    ∃ out, printResults { baseConfig with before := 1, after := 1 } "a.txt"
        ["foo", "a", "b", "c", "d", "foo", "e"] [0, 5] = some out ∧
      (lineIdxs out).Pairwise (· < ·) ∧
      (∀ p mid q i j ti tj, out = p ++ Out.line i ti :: mid ++ Out.line j tj :: q →
        lineIdxs mid = [] →
        i < j ∧ (mid = [Out.sep] ∨ mid = []) ∧
          (mid = [Out.sep] ↔ i + 1 < j) ∧ (mid = [] ↔ j = i + 1)) ∧
      (∀ p q i j ti tj, out = p ++ Out.line i ti :: Out.line j tj :: q → j = i + 1) ∧
      (∀ p q i j ti tj, out = p ++ Out.line i ti :: Out.sep :: Out.line j tj :: q →
        i + 1 < j) ∧
      (∀ p q, out = p ++ Out.sep :: q →
        (∃ p' i ti, p = p' ++ [Out.line i ti]) ∧ (∃ j tj q', q = Out.line j tj :: q')) :=
  printResults_separators { baseConfig with before := 1, after := 1 } "a.txt"
    ["foo", "a", "b", "c", "d", "foo", "e"] [0, 5] rfl
    ⟨by decide, by decide, by decide, by decide, by decide, by decide, by decide⟩

/-! ## The watermark -/

theorem printLoop_append (config : Config) (lines : List String) (ms1 ms2 : List Int)
    (st : PState) :
    printLoop config lines (ms1 ++ ms2) st =
      (printLoop config lines ms1 st).bind (printLoop config lines ms2) := by
  induction ms1 generalizing st with
  | nil => simp [printLoop]
  | cons m ms1 ih =>
    simp only [List.cons_append, printLoop]
    cases printMatch config lines st m with
    | none => rfl
    | some st' => exact ih st'

/-- One iteration keeps the watermark facts: the values assigned to
`lastPrintedIdx` so far, `-1` first, are strictly increasing, and the
watermark is the last of them. -/
theorem printMatch_watermark (config : Config) (lines : List String) (st : PState) (m : Int)
    (h1 : -1 ≤ st.last) (h2 : (-1 :: lineIdxs st.out).Pairwise (· < ·))
    (h3 : (-1 :: lineIdxs st.out).getLast? = some st.last) :
    ∃ st', printMatch config lines st m = some st' ∧
      -1 ≤ st'.last ∧ (-1 :: lineIdxs st'.out).Pairwise (· < ·) ∧
      (-1 :: lineIdxs st'.out).getLast? = some st'.last ∧
      st.last ≤ st'.last ∧ lineIdxs st.out <+: lineIdxs st'.out := by
  refine ⟨_, printMatch_eq config lines st m h1, ?_⟩
  obtain ⟨ps, hps⟩ : ∃ ps, ps = printStart config st m := ⟨_, rfl⟩
  obtain ⟨k, hk⟩ : ∃ k, k = printCount config lines st m := ⟨_, rfl⟩
  have hpsc := printStart_cases config st m
  have hws := winStart_nonneg config m
  rw [← hps] at hpsc
  simp only [← hps, ← hk]
  have hidx : lineIdxs (st.out ++ sepOf config st m ++
      (intRun ps k).map (lineRec config lines)) = lineIdxs st.out ++ intRun ps k := by
    rw [lineIdxs_append, lineIdxs_append, lineIdxs_sepOf, lineIdxs_map_lineRec]
    simp
  rw [hidx]
  have hlast : st.last < ps := by omega
  refine ⟨?_, ?_, ?_, ?_, ?_⟩
  · split <;> omega
  · rw [← List.cons_append, List.pairwise_append]
    refine ⟨h2, pairwise_intRun ps k, ?_⟩
    intro a ha b hb
    rw [intRun_mem] at hb
    have := le_of_getLast h2 h3 a ha
    omega
  · by_cases hk0 : k = 0
    · rw [if_pos hk0]; subst hk0
      simpa [intRun] using h3
    · rw [if_neg hk0, ← List.cons_append, List.getLast?_append, intRun_getLast ps hk0]
      rfl
  · split <;> omega
  · exact List.prefix_append _ _

theorem printLoop_watermark_from (config : Config) (lines : List String) (ms : List Int)
    (st : PState)
    (h1 : -1 ≤ st.last) (h2 : (-1 :: lineIdxs st.out).Pairwise (· < ·))
    (h3 : (-1 :: lineIdxs st.out).getLast? = some st.last) :
    ∃ st', printLoop config lines ms st = some st' ∧
      -1 ≤ st'.last ∧ (-1 :: lineIdxs st'.out).Pairwise (· < ·) ∧
      (-1 :: lineIdxs st'.out).getLast? = some st'.last ∧
      st.last ≤ st'.last ∧ lineIdxs st.out <+: lineIdxs st'.out := by
  induction ms generalizing st with
  | nil => exact ⟨st, rfl, h1, h2, h3, le_refl _, List.prefix_refl _⟩
  | cons m ms ih =>
    obtain ⟨s1, hs1, a1, a2, a3, a4, a5⟩ := printMatch_watermark config lines st m h1 h2 h3
    obtain ⟨s2, hs2, b1, b2, b3, b4, b5⟩ := ih s1 a1 a2 a3
    exact ⟨s2, by simp [printLoop, hs1, hs2], b1, b2, b3, le_trans a4 b4, a5.trans b5⟩

/-- C16. Watermark monotonicity: for every configuration, line list and
match list the loop of `printResults` returns; `lastPrintedIdx` starts at
`-1`, the values assigned to it (the indices of the line records, in
emission order: line 159 follows each print) are strictly increasing, each
greater than the value before, the watermark is always the last value
assigned, and between any two points of the loop it does not decrease. -/
theorem printLoop_watermark (config : Config) (lines : List String) (ms : List Int) :
    ∃ st, printLoop config lines ms { out := [], last := -1 } = some st ∧
      (-1 :: lineIdxs st.out).Pairwise (· < ·) ∧
      (-1 :: lineIdxs st.out).getLast? = some st.last ∧
      ∀ ms1 ms2, ms = ms1 ++ ms2 →
        ∃ st1, printLoop config lines ms1 { out := [], last := -1 } = some st1 ∧
          printLoop config lines ms2 st1 = some st ∧
          (-1 :: lineIdxs st1.out).getLast? = some st1.last ∧
          st1.last ≤ st.last ∧ lineIdxs st1.out <+: lineIdxs st.out := by
  have hinit1 : (-1 : Int) ≤ ({ out := [], last := -1 } : PState).last := le_refl _
  have hinit2 : (-1 :: lineIdxs ({ out := [], last := -1 } : PState).out).Pairwise (· < ·) := by
    simp [lineIdxs]
  have hinit3 : (-1 :: lineIdxs ({ out := [], last := -1 } : PState).out).getLast? =
      some ({ out := [], last := -1 } : PState).last := by
    simp [lineIdxs]
  obtain ⟨st, hst, -, w2, w3, -, -⟩ :=
    printLoop_watermark_from config lines ms _ hinit1 hinit2 hinit3
  refine ⟨st, hst, w2, w3, ?_⟩
  intro ms1 ms2 hms
  obtain ⟨st1, hst1, a1, a2, a3, -, -⟩ :=
    printLoop_watermark_from config lines ms1 _ hinit1 hinit2 hinit3
  obtain ⟨st2, hst2, -, -, -, b4, b5⟩ := printLoop_watermark_from config lines ms2 st1 a1 a2 a3
  have heq : st2 = st := by
    rw [hms, printLoop_append, hst1] at hst
    have h' : printLoop config lines ms2 st1 = some st := hst
    rw [hst2] at h'
    exact Option.some.inj h'
  subst heq
  exact ⟨st1, hst1, hst2, a3, b4, b5⟩

theorem printLoop_watermark_witness :
    ∃ st, printLoop { baseConfig with before := 1, after := 1 }
        ["foo", "a", "b", "c", "d", "foo", "e"] [0, 5] { out := [], last := -1 } = some st ∧
      (-1 :: lineIdxs st.out).Pairwise (· < ·) ∧
      (-1 :: lineIdxs st.out).getLast? = some st.last ∧
      ∀ ms1 ms2, [(0 : Int), 5] = ms1 ++ ms2 →
        ∃ st1, printLoop { baseConfig with before := 1, after := 1 }
            ["foo", "a", "b", "c", "d", "foo", "e"] ms1 { out := [], last := -1 } = some st1 ∧
          printLoop { baseConfig with before := 1, after := 1 }
            ["foo", "a", "b", "c", "d", "foo", "e"] ms2 st1 = some st ∧
          (-1 :: lineIdxs st1.out).getLast? = some st1.last ∧
          st1.last ≤ st.last ∧ lineIdxs st1.out <+: lineIdxs st.out :=
  printLoop_watermark { baseConfig with before := 1, after := 1 }
    ["foo", "a", "b", "c", "d", "foo", "e"] [0, 5]

/-! ## processFile and main -/

theorem runFiles_empty (lib : RegexpLib) (fs : String → FileRead) (config : Config)
    (pre rest : List String) (acc : List MainOut)
    (hpre : ∀ g ∈ pre, fs g = FileRead.lines []) :
    runFiles lib fs config (pre ++ rest) acc = runFiles lib fs config rest acc := by
  induction pre with
  | nil => rfl
  | cons g pre ih =>
    have hg : processFile lib fs config g = { out := [], status := ProcStatus.ok } := by
      simp [processFile, hpre g (List.mem_cons_self _ _)]
    simp only [List.cons_append, runFiles, hg, List.map_nil, List.append_nil]
    exact ih (fun x hx => hpre x (List.mem_cons_of_mem _ hx))

theorem compilePattern_invalid (lib : RegexpLib) (config : Config)
    (hfixed : config.fixed = false) (hbad : lib.compile config.pattern = none)
    (hflag : ∀ p, lib.compile p = none → lib.compile ("(?i)" ++ p) = none) :
    compilePattern lib config = none := by
  unfold compilePattern
  simp only [hfixed, Bool.false_eq_true, if_false]
  split
  · exact hflag _ hbad
  · exact hbad

theorem litLib_flag (p : String) : litLib.compile ("(?i)" ++ p) = none := by
  have h : ("(?i)" ++ p).data = '(' :: ('?' :: 'i' :: ')' :: p.data) := by
    rw [String.data_append]; rfl
  have h1 : ('(' : Char) ≠ '\\' := by decide
  have h2 : special '(' = true := by decide
  simp [litLib, h, unquoteChars, h1, h2]

/-- C17. Empty-file asymmetry: for every configuration (count-only or not)
`processFile` on a file with zero lines prints nothing and returns no
error, whereas on a file with at least one line and no match, in non-count
mode, it prints the header and the blank line. -/
theorem processFile_emptyFile (lib : RegexpLib) (fs : String → FileRead) (config : Config)
    (filename : String) :
    (fs filename = FileRead.lines [] →
      processFile lib fs config filename = { out := [], status := ProcStatus.ok }) ∧
    (∀ ls, fs filename = FileRead.lines ls → ls ≠ [] → config.count = false →
      findMatches lib config ls = Except.ok [] →
      processFile lib fs config filename =
        { out := [Out.header filename, Out.blank], status := ProcStatus.ok }) := by
  constructor
  · intro h
    simp [processFile, h]
  · intro ls h hne hc hm
    have hlen : ls.length ≠ 0 := by
      intro h0; exact hne (List.length_eq_zero.1 h0)
    simp [processFile, h, hlen, hm, printResults, hc]

theorem processFile_emptyFile_witness :
    processFile litLib (fun _ => FileRead.lines [])
        { baseConfig with count := true, pattern := "foo" } "empty.txt" =
      { out := [], status := ProcStatus.ok } ∧
    processFile litLib (fun _ => FileRead.lines ["bar", "baz"])
        { baseConfig with pattern := "foo" } "a.txt" =
      { out := [Out.header "a.txt", Out.blank], status := ProcStatus.ok } :=
  ⟨(processFile_emptyFile litLib (fun _ => FileRead.lines [])
      { baseConfig with count := true, pattern := "foo" } "empty.txt").1 rfl,
   (processFile_emptyFile litLib (fun _ => FileRead.lines ["bar", "baz"])
      { baseConfig with pattern := "foo" } "a.txt").2 ["bar", "baz"] rfl (by decide) rfl rfl⟩

/-- C11, as stated, fails when the readable files have no line: the pattern
`(` is rejected by the library, the only file is readable and empty, and the
run prints nothing and ends with exit status `0`. -/
theorem runMain_invalidPattern_counterexample :
    litLib.compile "(" = none ∧
    runMain litLib (fun _ => FileRead.lines [])
        { baseConfig with pattern := "(", files := ["empty.txt"] } =
      { out := [], exit := 0 } := by
  constructor
  · rfl
  · decide

/-- C11, amended. Invalid pattern is an error once a file with a line is
reached: for a run with a non-empty pattern and `fixed` unset whose pattern
the library rejects, if the files before `f` are readable and empty and `f`
is readable with at least one line, the run prints only the error message
for `f`, wrapping the pattern error, and ends with exit status `1`; if every
file is readable and empty the run prints nothing and ends with exit status
`0`.  (With `ignore` set the text compiled is `(?i)` followed by the
pattern, rejected whenever the pattern is: `hflag`.) -/
theorem runMain_invalidPattern (lib : RegexpLib) (fs : String → FileRead) (config : Config)
    (hp : config.pattern ≠ "") (hfixed : config.fixed = false)
    (hbad : lib.compile config.pattern = none)
    (hflag : ∀ p, lib.compile p = none → lib.compile ("(?i)" ++ p) = none) :
    (∀ pre f post ls, config.files = pre ++ f :: post →
      (∀ g ∈ pre, fs g = FileRead.lines []) → fs f = FileRead.lines ls → ls ≠ [] →
      runMain lib fs config =
        { out := [MainOut.processing f (ProcError.inFindMatches GrepError.invalidPattern)],
          exit := 1 }) ∧
    (config.files ≠ [] → (∀ g ∈ config.files, fs g = FileRead.lines []) →
      runMain lib fs config = { out := [], exit := 0 }) := by
  constructor
  · intro pre f post ls hfiles hpre hf hls
    have hlen : config.files.length ≠ 0 := by rw [hfiles]; simp
    have hlen' : ls.length ≠ 0 := by
      intro h0; exact hls (List.length_eq_zero.1 h0)
    have hc := compilePattern_invalid lib config hfixed hbad hflag
    have hproc : processFile lib fs config f =
        { out := [], status := ProcStatus.error
            (ProcError.inFindMatches GrepError.invalidPattern) } := by
      simp [processFile, hf, hlen', findMatches, hc]
    simp only [runMain, hp, if_false, hlen]
    rw [hfiles, runFiles_empty lib fs config pre (f :: post) [] hpre]
    simp [runFiles, hproc]
  · intro hne hall
    have hlen : config.files.length ≠ 0 := by
      intro h0; exact hne (List.length_eq_zero.1 h0)
    simp only [runMain, hp, if_false, hlen]
    have := runFiles_empty lib fs config config.files [] [] hall
    rw [List.append_nil] at this
    rw [this]; rfl

theorem runMain_invalidPattern_witness :
    runMain litLib (fun g => if g = "empty.txt" then FileRead.lines [] else FileRead.lines ["x"])
        { baseConfig with pattern := "(", files := ["empty.txt", "a.txt", "b.txt"] } =
      { out := [MainOut.processing "a.txt" (ProcError.inFindMatches GrepError.invalidPattern)],
        exit := 1 } :=
  (runMain_invalidPattern litLib
    (fun g => if g = "empty.txt" then FileRead.lines [] else FileRead.lines ["x"])
    { baseConfig with pattern := "(", files := ["empty.txt", "a.txt", "b.txt"] }
    (by decide) rfl rfl (fun p _ => litLib_flag p)).1 ["empty.txt"] "a.txt" ["b.txt"] ["x"]
    rfl (by decide) (by decide) (by decide)

end Grep

/-! # l2.9: theorems about `unpack` -/

namespace Unpack

theorem runeString_char (c : Char) : runeString (c.toNat : Int) = [c] := by
  have hv : c.toNat.isValidChar := c.valid
  simp [runeString, hv, Char.ofNat_toNat]

theorem unpackLoop_digitFree (isDigit : Char → Bool) (cs : List Char) (st : UState)
    (hd : ∀ c ∈ cs, isDigit c = false) (hp : st.prev ≠ -1) :
    ∃ st', unpackLoop isDigit cs st = some st' ∧ st'.prev ≠ -1 ∧
      st'.res ++ runeString st'.prev = st.res ++ runeString st.prev ++ cs ∧
      (st.hasLetter = true ∨ cs ≠ [] → st'.hasLetter = true) := by
  induction cs generalizing st with
  | nil => exact ⟨st, rfl, hp, by simp, by simp⟩
  | cons r rest ih =>
    have hr : isDigit r = false := hd r (List.mem_cons_self _ _)
    have hnext : ((r.toNat : Int)) ≠ -1 := by omega
    obtain ⟨st', h1, h2, h3, h4⟩ := ih
      { res := if st.prev ≠ -1 then st.res ++ runeString st.prev else st.res,
        prev := (r.toNat : Int), hasLetter := true }
      (fun c hc => hd c (List.mem_cons_of_mem _ hc)) hnext
    refine ⟨st', ?_, h2, ?_, fun _ => h4 (Or.inl rfl)⟩
    · simp only [unpackLoop, hr, Bool.false_eq_true, if_false]
      exact h1
    · rw [h3]
      simp only [hp, ne_eq, not_false_eq_true, if_true, runeString_char]
      simp

/-- C18 fails on the code: `prev` starts at the zero value `0`, not at the
sentinel `-1`, so the first character makes the loop append `string(0)`.
For every non-empty string `s` without a digit character `unpack` returns,
with no error, the character U+0000 followed by `s`, and not `s`. -/
theorem unpack_digitFree (isDigit : Char → Bool) (s : String) (hne : s ≠ "")
    (hd : ∀ c ∈ s.data, isDigit c = false) :
    unpack isDigit s = (String.mk (Char.ofNat 0 :: s.data), none) ∧
    unpack isDigit s ≠ (s, none) := by
  obtain ⟨st', h1, h2, h3, h4⟩ := unpackLoop_digitFree isDigit s.data
    { res := [], prev := 0, hasLetter := false } hd (by decide)
  have hdata : s.data ≠ [] := by
    intro h; apply hne; exact String.ext h
  have hl := h4 (Or.inr hdata)
  have hres : st'.res ++ runeString st'.prev = Char.ofNat 0 :: s.data := by
    rw [h3]; rfl
  have heq : unpack isDigit s = (String.mk (Char.ofNat 0 :: s.data), none) := by
    simp [unpack, hne, h1, h2, hl, hres]
  refine ⟨heq, ?_⟩
  rw [heq]
  intro h
  have h' := congrArg (fun p => p.1.data.length) h
  simp at h'

theorem unpack_digitFree_witness :
    unpack Char.isDigit "abcd" = (String.mk (Char.ofNat 0 :: "abcd".data), none) ∧
    unpack Char.isDigit "abcd" ≠ ("abcd", none) :=
  unpack_digitFree Char.isDigit "abcd" (by decide) (by decide)

/-- C19. `unpack` rejects digit-only input and accepts the empty string: for
every non-empty string made of ASCII digits only it returns the empty string
together with an error, and `unpack("")` returns the empty string with no
error.  (`isDigit` is `unicode.IsDigit`, true on the ASCII digits.) -/
theorem unpack_digitsOnly (isDigit : Char → Bool)
    (hascii : ∀ c : Char, c.isDigit = true → isDigit c = true) :
    (∀ s : String, s ≠ "" → (∀ c ∈ s.data, c.isDigit = true) →
      unpack isDigit s = ("", some UnpackError.incorrectInput)) ∧
    unpack isDigit "" = ("", none) := by
  constructor
  · intro s hne hd
    have hdata : s.data ≠ [] := by
      intro h; apply hne; exact String.ext h
    cases hs : s.data with
    | nil => exact absurd hs hdata
    | cons d rest =>
      have hd1 : isDigit d = true := hascii d (hd d (by rw [hs]; exact List.mem_cons_self _ _))
      cases rest with
      | nil =>
        simp [unpack, hne, hs, unpackLoop, hd1]
      | cons d2 rest =>
        have hd2 : isDigit d2 = true :=
          hascii d2 (hd d2 (by rw [hs]; simp))
        simp [unpack, hne, hs, unpackLoop, hd1, hd2]
  · simp [unpack]

theorem unpack_digitsOnly_witness :
    unpack Char.isDigit "67" = ("", some UnpackError.incorrectInput) ∧
    unpack Char.isDigit "" = ("", none) :=
  ⟨(unpack_digitsOnly Char.isDigit (fun _ h => h)).1 "67" (by decide) (by decide),
   (unpack_digitsOnly Char.isDigit (fun _ h => h)).2⟩

end Unpack

/-! # l2.11: theorems about `anagram` -/

namespace Anagram

theorem sortKey_eq_iff (lower : Char → Char) (w1 w2 : String) :
    sortKey lower w1 = sortKey lower w2 ↔ (w1.data.map lower).Perm (w2.data.map lower) := by
  unfold sortKey
  constructor
  · intro h
    have h' : (w1.data.map lower).insertionSort (· ≤ ·) =
        (w2.data.map lower).insertionSort (· ≤ ·) := by
      simpa using congrArg String.data h
    exact ((List.perm_insertionSort (· ≤ ·) _).symm.trans (h' ▸ List.Perm.refl _)).trans
      (List.perm_insertionSort (· ≤ ·) _)
  · intro h
    congr 1
    apply List.eq_of_perm_of_sorted (r := (· ≤ ·))
    · exact ((List.perm_insertionSort (· ≤ ·) _).trans h).trans
        (List.perm_insertionSort (· ≤ ·) _).symm
    · exact List.sorted_insertionSort (· ≤ ·) _
    · exact List.sorted_insertionSort (· ≤ ·) _

theorem get?_filter_ne (m : GoMap) (k k' : String) (h : k' ≠ k) :
    get? (m.filter (fun e => decide (e.1 ≠ k))) k' = get? m k' := by
  induction m with
  | nil => rfl
  | cons e m ih =>
    obtain ⟨a, b⟩ := e
    by_cases ha : a = k
    · subst ha
      have hne : a ≠ k' := fun h' => h h'.symm
      rw [List.filter_cons_of_neg (by simp)]
      simp only [get?, hne, if_false]
      exact ih
    · rw [List.filter_cons_of_pos (by simpa using ha)]
      simp only [get?]
      split
      · rfl
      · exact ih

theorem get?_mapSet (m : GoMap) (k k' : String) (v : List String) :
    get? (mapSet m k v) k' = if k = k' then some v else get? m k' := by
  unfold mapSet
  by_cases h : k = k'
  · simp [get?, h]
  · simp only [get?, h, if_false]
    exact get?_filter_ne m k k' (fun h' => h h'.symm)

theorem keys_mapSet (m : GoMap) (k : String) (v : List String)
    (h : (m.map Prod.fst).Nodup) : ((mapSet m k v).map Prod.fst).Nodup := by
  unfold mapSet
  rw [List.map_cons, List.nodup_cons]
  constructor
  · intro hk
    obtain ⟨e, he, hek⟩ := List.mem_map.1 hk
    have := (List.mem_filter.1 he).2
    simp at this
    exact this hek
  · exact h.sublist ((List.filter_sublist m).map Prod.fst)

theorem mem_iff_get? (m : GoMap) (h : (m.map Prod.fst).Nodup) (k : String) (v : List String) :
    (k, v) ∈ m ↔ get? m k = some v := by
  induction m with
  | nil => simp [get?]
  | cons e m ih =>
    obtain ⟨a, b⟩ := e
    rw [List.map_cons, List.nodup_cons] at h
    by_cases ha : a = k
    · subst ha
      simp only [get?, if_true, List.mem_cons, Prod.mk.injEq, true_and, Option.some.injEq]
      constructor
      · rintro (h1 | h1)
        · exact h1.symm
        · exact absurd (List.mem_map.2 ⟨(a, v), h1, rfl⟩) h.1
      · intro h1; exact Or.inl h1.symm
    · simp only [get?, ha, if_false, List.mem_cons, Prod.mk.injEq]
      rw [← ih h.2]
      constructor
      · rintro (h1 | h1)
        · exact absurd h1.1.symm ha
        · exact h1
      · intro h1; exact Or.inr h1

theorem keys_tmpMap (lower : Char → Char) (words : List String) (m : GoMap)
    (h : (m.map Prod.fst).Nodup) : ((tmpMap lower words m).map Prod.fst).Nodup := by
  induction words generalizing m with
  | nil => exact h
  | cons w rest ih => exact ih _ (keys_mapSet m _ _ h)

/-- The first loop: after it, the value of a key is what it was before
followed by the words of that key, in input order. -/
theorem get?_tmpMap (lower : Char → Char) (words : List String) (m : GoMap) (key : String) :
    get? (tmpMap lower words m) key =
      if group lower words key = [] then get? m key
      else some (mapGet m key ++ group lower words key) := by
  induction words generalizing m with
  | nil => simp [tmpMap, group]
  | cons w rest ih =>
    simp only [tmpMap]
    rw [ih]
    by_cases hk : sortKey lower w = key
    · have hg : group lower (w :: rest) key = w :: group lower rest key := by
        simp [group, List.filter, hk]
      rw [hg]
      simp only [get?_mapSet, mapGet, hk, if_true, Option.getD_some]
      split <;> simp_all
    · have hg : group lower (w :: rest) key = group lower rest key := by
        simp [group, List.filter, hk]
      rw [hg]
      simp only [get?_mapSet, mapGet, hk, if_false]

theorem mem_tmpMap (lower : Char → Char) (words : List String) (key : String)
    (v : List String) :
    (key, v) ∈ tmpMap lower words [] ↔ v = group lower words key ∧ v ≠ [] := by
  rw [mem_iff_get? _ (keys_tmpMap lower words [] (by simp)), get?_tmpMap]
  by_cases hg : group lower words key = []
  · simp only [hg, if_true, get?]
    constructor
    · intro h; simp at h
    · rintro ⟨h1, h2⟩; exact absurd h1 h2
  · simp only [hg, if_false, mapGet, get?, Option.getD_none, List.nil_append,
      Option.some.injEq]
    constructor
    · intro h; exact ⟨h.symm, by rw [← h]; exact hg⟩
    · rintro ⟨h1, -⟩; exact h1.symm

theorem keys_collect (entries : List (String × List String)) (res : GoMap)
    (h : (res.map Prod.fst).Nodup) : ((collect entries res).map Prod.fst).Nodup := by
  induction entries generalizing res with
  | nil => exact h
  | cons e rest ih =>
    obtain ⟨key, a⟩ := e
    simp only [collect]
    split
    · exact ih _ (keys_mapSet res _ _ h)
    · exact ih _ h

/-- The second loop: an entry of the result is an entry of the input with
at least two words, under the key of its first word, provided two such
entries never share a first word. -/
theorem get?_collect (entries : List (String × List String)) (res : GoMap)
    (huniq : ∀ key1 v1 key2 v2, (key1, v1) ∈ entries → (key2, v2) ∈ entries →
      2 ≤ v1.length → 2 ≤ v2.length → v1.headD "" = v2.headD "" → v1 = v2)
    (k : String) (v : List String) :
    get? (collect entries res) k = some v ↔
      (∃ key, (key, v) ∈ entries ∧ 2 ≤ v.length ∧ v.headD "" = k) ∨
      ((∀ key v', (key, v') ∈ entries → 2 ≤ v'.length → v'.headD "" ≠ k) ∧
        get? res k = some v) := by
  induction entries generalizing res with
  | nil => simp [collect]
  | cons e rest ih =>
    obtain ⟨key0, a⟩ := e
    have huniq' : ∀ key1 v1 key2 v2, (key1, v1) ∈ rest → (key2, v2) ∈ rest →
        2 ≤ v1.length → 2 ≤ v2.length → v1.headD "" = v2.headD "" → v1 = v2 :=
      fun key1 v1 key2 v2 h1 h2 =>
        huniq key1 v1 key2 v2 (List.mem_cons_of_mem _ h1) (List.mem_cons_of_mem _ h2)
    simp only [collect]
    by_cases ha : a.length ≥ 2
    · rw [if_pos ha, ih _ huniq', get?_mapSet]
      constructor
      · rintro (⟨key, hmem, hlen, hhead⟩ | ⟨hnone, hget⟩)
        · exact Or.inl ⟨key, List.mem_cons_of_mem _ hmem, hlen, hhead⟩
        · by_cases hk : a.headD "" = k
          · rw [if_pos hk] at hget
            have hav : a = v := Option.some.inj hget
            subst hav
            exact Or.inl ⟨key0, List.mem_cons_self _ _, ha, hk⟩
          · rw [if_neg hk] at hget
            refine Or.inr ⟨?_, hget⟩
            intro key v' hmem hlen
            rcases List.mem_cons.1 hmem with h | h
            · simp only [Prod.mk.injEq] at h
              rw [h.2]; exact hk
            · exact hnone key v' h hlen
      · rintro (⟨key, hmem, hlen, hhead⟩ | ⟨hnone, hget⟩)
        · rcases List.mem_cons.1 hmem with h | h
          · simp only [Prod.mk.injEq] at h
            obtain ⟨-, hva⟩ := h
            subst hva
            by_cases hex : ∃ key' v', (key', v') ∈ rest ∧ 2 ≤ v'.length ∧ v'.headD "" = k
            · obtain ⟨key', v', hmem', hlen', hhead'⟩ := hex
              have : v' = v := huniq key' v' key0 v (List.mem_cons_of_mem _ hmem')
                (List.mem_cons_self _ _) hlen' hlen (by rw [hhead', hhead])
              subst this
              exact Or.inl ⟨key', hmem', hlen', hhead'⟩
            · refine Or.inr ⟨?_, by rw [if_pos hhead]⟩
              intro key' v' hmem' hlen' hhead'
              exact hex ⟨key', v', hmem', hlen', hhead'⟩
          · exact Or.inl ⟨key, h, hlen, hhead⟩
        · have hk : a.headD "" ≠ k := hnone key0 a (List.mem_cons_self _ _) ha
          refine Or.inr ⟨fun key v' hmem hlen => hnone key v' (List.mem_cons_of_mem _ hmem) hlen,
            by rw [if_neg hk]; exact hget⟩
    · rw [if_neg ha, ih _ huniq']
      constructor
      · rintro (⟨key, hmem, hlen, hhead⟩ | ⟨hnone, hget⟩)
        · exact Or.inl ⟨key, List.mem_cons_of_mem _ hmem, hlen, hhead⟩
        · refine Or.inr ⟨?_, hget⟩
          intro key v' hmem hlen
          rcases List.mem_cons.1 hmem with h | h
          · simp only [Prod.mk.injEq] at h
            rw [h.2] at hlen; exact absurd hlen ha
          · exact hnone key v' h hlen
      · rintro (⟨key, hmem, hlen, hhead⟩ | ⟨hnone, hget⟩)
        · rcases List.mem_cons.1 hmem with h | h
          · simp only [Prod.mk.injEq] at h
            rw [h.2] at hlen; exact absurd hlen ha
          · exact Or.inl ⟨key, h, hlen, hhead⟩
        · exact Or.inr ⟨fun key v' hmem hlen => hnone key v' (List.mem_cons_of_mem _ hmem) hlen,
            hget⟩

theorem headD_mem_group (lower : Char → Char) (words : List String) (key : String)
    (h : group lower words key ≠ []) :
    (group lower words key).headD "" ∈ words ∧
      sortKey lower ((group lower words key).headD "") = key ∧
      (group lower words key).head? = some ((group lower words key).headD "") := by
  cases hg : group lower words key with
  | nil => exact absurd hg h
  | cons w rest =>
    have hw : w ∈ group lower words key := by rw [hg]; exact List.mem_cons_self _ _
    unfold group at hw
    rw [List.mem_filter] at hw
    exact ⟨hw.1, by simpa using hw.2, rfl⟩

/-- C20. Anagram grouping: whatever the order in which the entries of
`tmpMap` are visited, an entry `k ↦ v` of the map returned by `anagram` is
exactly: `k` is an input word, `v` is the list of all input words with the
key of `k` (the same multiset of lower-cased characters), in input order,
`v` has at least two words and `k` is the first of them.  Hence a word whose
multiset occurs once in the input is in no entry. -/
theorem anagram_groups (lower : Char → Char) (words : List String)
    (entries : List (String × List String))
    (hperm : entries.Perm (tmpMap lower words [])) :
    (∀ k v, get? (collect entries []) k = some v ↔
      k ∈ words ∧ v = group lower words (sortKey lower k) ∧ 2 ≤ v.length ∧
        v.head? = some k) ∧
    (∀ w1 w2, sortKey lower w1 = sortKey lower w2 ↔
      (w1.data.map lower).Perm (w2.data.map lower)) ∧
    (∀ w, (group lower words (sortKey lower w)).length ≤ 1 →
      ∀ k v, get? (collect entries []) k = some v → w ∉ v) ∧
    ((collect entries []).map Prod.fst).Nodup ∧
    anagram lower words = collect (tmpMap lower words []) [] := by
  have hmem : ∀ key v, (key, v) ∈ entries ↔ v = group lower words key ∧ v ≠ [] := by
    intro key v
    rw [hperm.mem_iff]; exact mem_tmpMap lower words key v
  have huniq : ∀ key1 v1 key2 v2, (key1, v1) ∈ entries → (key2, v2) ∈ entries →
      2 ≤ v1.length → 2 ≤ v2.length → v1.headD "" = v2.headD "" → v1 = v2 := by
    intro key1 v1 key2 v2 h1 h2 _ _ hhead
    obtain ⟨e1, n1⟩ := (hmem key1 v1).1 h1
    obtain ⟨e2, n2⟩ := (hmem key2 v2).1 h2
    subst e1 e2
    have k1 := (headD_mem_group lower words key1 n1).2.1
    have k2 := (headD_mem_group lower words key2 n2).2.1
    rw [hhead, k2] at k1
    rw [k1]
  have hiff : ∀ k v, get? (collect entries []) k = some v ↔
      k ∈ words ∧ v = group lower words (sortKey lower k) ∧ 2 ≤ v.length ∧
        v.head? = some k := by
    intro k v
    rw [get?_collect entries [] huniq]
    constructor
    · rintro (⟨key, hin, hlen, hhead⟩ | ⟨-, hget⟩)
      · obtain ⟨e, n⟩ := (hmem key v).1 hin
        subst e
        obtain ⟨g1, g2, g3⟩ := headD_mem_group lower words key n
        rw [hhead] at g1 g2 g3
        exact ⟨g1, by rw [g2], hlen, g3⟩
      · simp [get?] at hget
    · rintro ⟨-, hv, hlen, hhead⟩
      left
      have hne : v ≠ [] := by
        intro h; rw [h] at hlen; simp at hlen
      refine ⟨sortKey lower k, (hmem _ v).2 ⟨hv, hne⟩, hlen, ?_⟩
      cases v with
      | nil => exact absurd rfl hne
      | cons a rest =>
        simp only [List.head?_cons, Option.some.injEq] at hhead
        simp [hhead]
  refine ⟨hiff, sortKey_eq_iff lower, ?_, keys_collect entries [] (by simp), rfl⟩
  intro w hw k v hget hwv
  obtain ⟨-, hv, hlen, -⟩ := (hiff k v).1 hget
  have hkey : sortKey lower w = sortKey lower k := by
    rw [hv] at hwv
    unfold group at hwv
    rw [List.mem_filter] at hwv
    simpa using hwv.2
  rw [hkey, ← hv] at hw
  omega

theorem anagram_groups_witness :
    (∀ k v, get? (collect (tmpMap Char.toLower ["Abc", "x", "cab", "bca"] []) []) k = some v ↔
      k ∈ ["Abc", "x", "cab", "bca"] ∧
        v = group Char.toLower ["Abc", "x", "cab", "bca"] (sortKey Char.toLower k) ∧
        2 ≤ v.length ∧ v.head? = some k) ∧
    anagram Char.toLower ["Abc", "x", "cab", "bca"] = [("Abc", ["Abc", "cab", "bca"])] :=
  ⟨(anagram_groups Char.toLower ["Abc", "x", "cab", "bca"]
      (tmpMap Char.toLower ["Abc", "x", "cab", "bca"] []) (List.Perm.refl _)).1, by decide⟩

end Anagram
